import Mathlib

set_option maxRecDepth 4000

/-
  Verification development for overlayfs-tools.

  The repository ships `main.c` (the CLI bootstrap); the core engine
  (entry inspector, pairwise classifier, tree walker, action planners,
  script emitter) lives in `logic.c`/`sh.c`, which are not part of the
  sources available here.  Those components are modelled from the spec
  (each such definition carries a doc comment starting with
  `Modelled from the spec:`).  `main.c` itself is embedded directly.

  Directory names are drawn from a countably infinite, totally ordered
  alphabet, modelled as `Nat`; file contents are byte lists.
-/

/-! ### Data model: file-system trees (modelled from the spec, section 3) -/

structure FMeta where
  mode : Nat
  uid : Nat
  gid : Nat
  deriving DecidableEq

mutual
/-- Modelled from the spec: one file-system entry (`EntrySnapshot` source data).
A whiteout is a character device with device numbers 0/0, represented as
`special m 0 0`.  An upper directory may carry the OverlayFS opaque marker
(`opq`). -/
inductive FNode where
  | file (m : FMeta) (content : List Nat)
  | dir (m : FMeta) (opq : Bool) (children : FS)
  | symlink (m : FMeta) (tgt : Nat)
  | special (m : FMeta) (major minor : Nat)
  deriving DecidableEq
/-- Modelled from the spec: the ordered child list of one directory, an
association chain of (name, node) entries. -/
inductive FS where
  | nil
  | cons (name : Nat) (node : FNode) (rest : FS)
  deriving DecidableEq
end

/-- A path relative to the tree roots (`RelativePath`). -/
abbrev FPath := List Nat

/-- Modelled from the spec: the classifier's verdict for one relative path. -/
inductive Verdict where
  | unchanged
  | added
  | deleted
  | modified
  | opaqReplaced
  deriving DecidableEq

/-- Modelled from the spec: entry kinds as seen by the classifier. -/
inductive EKind where
  | regular
  | directory
  | symlink
  | otherSpecial
  | whiteout
  deriving DecidableEq

def kindOf : FNode → EKind
  | .file .. => .regular
  | .dir .. => .directory
  | .symlink .. => .symlink
  | .special _ 0 0 => .whiteout
  | .special .. => .otherSpecial

/-- First entry named `n` in a child list (directory lookup). -/
def lookupName (n : Nat) : FS → Option FNode
  | .nil => none
  | .cons nm t rest => if nm = n then some t else lookupName n rest

/-- Entry at a (nonempty) relative path below a child list. -/
def lookupPath (cs : FS) : FPath → Option FNode
  | [] => none
  | n :: q =>
    match q with
    | [] => lookupName n cs
    | _ =>
      match lookupName n cs with
      | some (.dir _ _ ccs) => lookupPath ccs q
      | _ => none

mutual
def sizeN : FNode → Nat
  | .dir _ _ cs => 1 + sizeF cs
  | _ => 1
def sizeF : FS → Nat
  | .nil => 0
  | .cons _ t rest => sizeN t + sizeF rest
end

def namesF : FS → List Nat
  | .nil => []
  | .cons n _ rest => n :: namesF rest

def dedupN : List Nat → List Nat
  | [] => []
  | n :: rest => n :: (dedupN rest).filter (fun m => decide (m ≠ n))

def insertSorted (x : Nat) : List Nat → List Nat
  | [] => [x]
  | y :: rest => if x ≤ y then x :: y :: rest else y :: insertSorted x rest

def sortNames : List Nat → List Nat
  | [] => []
  | x :: rest => insertSorted x (sortNames rest)

/-- Modelled from the spec: merged directory listing, the union of the names
on both sides, visited once each, in a deterministic sorted order. -/
def unionNames (lc uc : FS) : List Nat :=
  sortNames (dedupN (namesF lc ++ namesF uc))

/-- Modelled from the spec: equality of the comparable snapshot fields
(mode/ownership, plus content for regular files, target for symlinks;
directories compare metadata only — their content is judged by children). -/
def entryEq : FNode → FNode → Bool
  | .file m c, .file m2 c2 => decide (m = m2 ∧ c = c2)
  | .dir m _ _, .dir m2 _ _ => decide (m = m2)
  | .symlink m t, .symlink m2 t2 => decide (m = m2 ∧ t = t2)
  | .special m _ _, .special m2 _ _ => decide (m = m2)
  | _, _ => false

/-- Modelled from the spec: the pairwise classifier, decision order as in
section 4.2 (whiteout first, then absence, then kind, opacity, fields). -/
def classify (l u : Option FNode) : Verdict :=
  match u with
  | none => .unchanged
  | some ut =>
    if kindOf ut = EKind.whiteout then
      match l with
      | some _ => .deleted
      | none => .modified
    else
      match l with
      | none => .added
      | some lt =>
        if kindOf lt = kindOf ut then
          match ut with
          | .dir _ true _ => .opaqReplaced
          | _ => if entryEq lt ut then .unchanged else .modified
        else .modified

/-- Modelled from the spec: which child-list pair the walker recurses into
for one name, if any.  Under an `opaqReplaced`/`deleted`/`added` upper
directory the lower side is replaced by an absent (empty) virtual
counterpart; two ordinary directories recurse normally; nothing else
recurses. -/
def subTrees (l u : Option FNode) : Option (FS × FS) :=
  match u with
  | some (.dir _ o ucs) =>
    let v := classify l u
    if v = .opaqReplaced ∨ v = .deleted then some (.nil, ucs)
    else if v = .added then some (.nil, ucs)
    else
      match l with
      | some (.dir _ _ lcs) => if o = false then some (lcs, ucs) else none
      | _ => none
  | _ => none

/-- Modelled from the spec: the tree walker, fuelled.  Processes the given
name list at the current level; for each name it classifies the pair,
emits one verdict, and recurses per `subTrees`. -/
def walkAux : Nat → FS → FS → List Nat → List (FPath × Verdict)
  | 0, _, _, _ => []
  | _ + 1, _, _, [] => []
  | fuel + 1, lc, uc, n :: rest =>
    let l := lookupName n lc
    let u := lookupName n uc
    let sub :=
      match subTrees l u with
      | some (slc, suc) => walkAux fuel slc suc (unionNames slc suc)
      | none => []
    (([n], classify l u) :: sub.map (fun pv => (n :: pv.1, pv.2)))
      ++ walkAux fuel lc uc rest

/-- Fuel that always suffices for `walkAux` (quadratic upper bound). -/
def walkNeed (lc uc : FS) (ns : List Nat) : Nat :=
  ns.length + (sizeF lc + sizeF uc) * (sizeF lc + sizeF uc) + 1

/-- Modelled from the spec: the full tree walk over two child lists,
producing the ordered stream of (relative path, verdict). -/
def walkDir (lc uc : FS) : List (FPath × Verdict) :=
  walkAux (walkNeed lc uc (unionNames lc uc)) lc uc (unionNames lc uc)

/-- One level of `walkAux`, for one name, at a given child fuel. -/
def groupList (f : Nat) (lc uc : FS) (n : Nat) : List (FPath × Verdict) :=
  let l := lookupName n lc
  let u := lookupName n uc
  let sub :=
    match subTrees l u with
    | some (slc, suc) => walkAux f slc suc (unionNames slc suc)
    | none => []
  ([n], classify l u) :: sub.map (fun pv => (n :: pv.1, pv.2))

/-! ### Deferred operations and their effect on the lower tree -/

/-- Modelled from the spec: deferred filesystem operations emitted by the
planners (delete-path, copy-path-with-metadata, remove-subtree, plus the
final clearing of upperdir). -/
inductive Op where
  | deletePath (p : FPath)
  | copyEntry (p : FPath) (node : FNode)
  | copyTree (p : FPath) (node : FNode)
  | removeSubtree (p : FPath)
  | clearUpper
  deriving DecidableEq

def defaultMeta : FMeta := ⟨0, 0, 0⟩

/-- Remove every entry named `n` at this level. -/
def removeName (n : Nat) : FS → FS
  | .nil => .nil
  | .cons nm t rest =>
    if nm = n then removeName n rest else .cons nm t (removeName n rest)

/-- Replace the first entry named `n` (append when absent). -/
def setName (n : Nat) (node : FNode) : FS → FS
  | .nil => .cons n node .nil
  | .cons nm t rest =>
    if nm = n then .cons n node rest else .cons nm t (setName n node rest)

/-- Copying a single entry over an existing one: for directories only the
metadata is installed (children are kept, or an empty directory is
created); other kinds replace whatever was there. -/
def placeEntry (existing : Option FNode) (node : FNode) : FNode :=
  match node with
  | .dir m o _ =>
    match existing with
    | some (.dir _ _ ecs) => .dir m o ecs
    | _ => .dir m o .nil
  | other => other

def applyRemove (cs : FS) : FPath → FS
  | [] => cs
  | n :: q =>
    match q with
    | [] => removeName n cs
    | _ =>
      match lookupName n cs with
      | some (.dir m o ccs) => setName n (.dir m o (applyRemove ccs q)) cs
      | _ => cs

def applyCopyEntry (cs : FS) : FPath → FNode → FS
  | [], _ => cs
  | n :: q, node =>
    match q with
    | [] => setName n (placeEntry (lookupName n cs) node) cs
    | _ =>
      match lookupName n cs with
      | some (.dir m o ccs) => setName n (.dir m o (applyCopyEntry ccs q node)) cs
      | _ => setName n (.dir defaultMeta false (applyCopyEntry .nil q node)) cs

def applyCopyTree (cs : FS) : FPath → FNode → FS
  | [], _ => cs
  | n :: q, node =>
    match q with
    | [] => setName n node cs
    | _ =>
      match lookupName n cs with
      | some (.dir m o ccs) => setName n (.dir m o (applyCopyTree ccs q node)) cs
      | _ => setName n (.dir defaultMeta false (applyCopyTree .nil q node)) cs

/-- Effect of one deferred operation on a (lower) child list.  Clearing
upperdir does not touch the lower tree. -/
def applyOp (cs : FS) : Op → FS
  | .deletePath p => applyRemove cs p
  | .copyEntry p node => applyCopyEntry cs p node
  | .copyTree p node => applyCopyTree cs p node
  | .removeSubtree p => applyRemove cs p
  | .clearUpper => cs

def applyOps (cs : FS) : List Op → FS
  | [] => cs
  | op :: rest => applyOps (applyOp cs op) rest

def pathOf : Op → Option FPath
  | .deletePath p => some p
  | .copyEntry p _ => some p
  | .copyTree p _ => some p
  | .removeSubtree p => some p
  | .clearUpper => none

def opHead (op : Op) : Option Nat :=
  match pathOf op with
  | some (n :: _) => some n
  | _ => none

def consOp (n : Nat) : Op → Op
  | .deletePath p => .deletePath (n :: p)
  | .copyEntry p t => .copyEntry (n :: p) t
  | .copyTree p t => .copyTree (n :: p) t
  | .removeSubtree p => .removeSubtree (n :: p)
  | .clearUpper => .clearUpper

def filterHead (n : Nat) (ops : List Op) : List Op :=
  ops.filter (fun op => decide (opHead op = some n))

/-- Effect of one operation (whose path starts at this level's child) on the
value of that child entry. -/
def childApply (c : Option FNode) (op : Op) : Option FNode :=
  match op with
  | .clearUpper => c
  | .deletePath p =>
    match p with
    | [] => c
    | [_] => none
    | _ :: q =>
      match c with
      | some (.dir m o cs) => some (.dir m o (applyRemove cs q))
      | _ => c
  | .removeSubtree p =>
    match p with
    | [] => c
    | [_] => none
    | _ :: q =>
      match c with
      | some (.dir m o cs) => some (.dir m o (applyRemove cs q))
      | _ => c
  | .copyEntry p node =>
    match p with
    | [] => c
    | [_] => some (placeEntry c node)
    | _ :: q =>
      match c with
      | some (.dir m o cs) => some (.dir m o (applyCopyEntry cs q node))
      | _ => some (.dir defaultMeta false (applyCopyEntry .nil q node))
  | .copyTree p node =>
    match p with
    | [] => c
    | [_] => some node
    | _ :: q =>
      match c with
      | some (.dir m o cs) => some (.dir m o (applyCopyTree cs q node))
      | _ => some (.dir defaultMeta false (applyCopyTree .nil q node))

def childApplyOps (c : Option FNode) : List Op → Option FNode
  | [] => c
  | op :: rest => childApplyOps (childApply c op) rest

/-! ### Action planners (modelled from the spec, section 4.4) -/

/-- Modelled from the spec: merge operations for one verdict.  `Added`
and `Modified` copy the upper entry (with metadata) into the lower path;
`Deleted` removes the lower entry; `opaqReplaced` removes the whole lower
subtree and copies the full upper subtree in its place. -/
def opsFor (p : FPath) (v : Verdict) (u : Option FNode) : List Op :=
  match v with
  | .unchanged => []
  | .added =>
    match u with
    | some t => [.copyEntry p t]
    | none => []
  | .modified =>
    match u with
    | some t => [.copyEntry p t]
    | none => []
  | .deleted => [.removeSubtree p]
  | .opaqReplaced =>
    match u with
    | some t => [.removeSubtree p, .copyTree p t]
    | none => []

def planOps (uc : FS) : List (FPath × Verdict) → List Op
  | [] => []
  | pv :: rest => opsFor pv.1 pv.2 (lookupPath uc pv.1) ++ planOps uc rest

/-- Modelled from the spec: the merge planner consumes the walk stream and
appends one final operation clearing the whole upperdir.  The `verbose`
flag is accepted (as in the C signature) but does not influence planning. -/
def mergePlan (lc uc : FS) (verbose : Bool) : List Op :=
  planOps uc (walkDir lc uc) ++ [Op.clearUpper]

/-- Modelled from the spec: the vacuum planner emits a delete for every
`Unchanged` path whose upper side is a regular file physically present in
upperdir, and nothing else.  The `verbose` flag is accepted but unused. -/
def vacuumOps (uc : FS) : List (FPath × Verdict) → List Op
  | [] => []
  | pv :: rest =>
    (match pv.2, lookupPath uc pv.1 with
     | .unchanged, some (.file _ _) => [Op.deletePath pv.1]
     | _, _ => []) ++ vacuumOps uc rest

def vacuumPlan (lc uc : FS) (verbose : Bool) : List Op :=
  vacuumOps uc (walkDir lc uc)

/-- How the resulting lower tree at a path has to relate to the prior upper
state: directories agree on their own metadata (children are governed by
their own verdicts), every other kind agrees exactly. -/
def entryMatches : Option FNode → Option FNode → Prop
  | some (.dir m _ _), some (.dir m2 _ _) => m = m2
  | a, b => a = b

/-! ### Embedding of `main.c` -/

def STRING_BUFFER_SIZE : Nat := 8192

/-- One `fgets` call on the remaining content: read at most `k` characters,
stopping right after a newline. -/
def fgetsTake : Nat → List Char → List Char × List Char
  | 0, rest => ([], rest)
  | _ + 1, [] => ([], [])
  | k + 1, ch :: rest =>
    if ch = '\n' then ([ch], rest)
    else
      let pr := fgetsTake k rest
      (ch :: pr.1, pr.2)

def fgetsSplit : Nat → List Char → List (List Char)
  | 0, _ => []
  | _ + 1, [] => []
  | fuel + 1, content =>
    let pr := fgetsTake (STRING_BUFFER_SIZE - 1) content
    pr.1 :: fgetsSplit fuel pr.2

/-- The successive buffers produced by the `fgets` loop of `is_mounted`. -/
def readLines (c : List Char) : List (List Char) := fgetsSplit (c.length + 1) c

def listPref : List Char → List Char → Bool
  | [], _ => true
  | _ :: _, [] => false
  | a :: as, b :: bs => if a = b then listPref as bs else false

/-- Embeds `strstr`: the suffix of the haystack starting at the first
occurrence of the pattern, if any. -/
def strstrSuffix (pat : List Char) : List Char → Option (List Char)
  | [] => if pat = [] then some [] else none
  | hay@(_ :: rest) => if listPref pat hay then some hay else strstrSuffix pat rest

/-- Embeds the loop body of `is_mounted` over the buffered lines: skip
lines not starting with "overlay"; treat an exactly-buffer-sized line as
mounted; treat a line without both fields as mounted; treat a matching
lowerdir or upperdir prefix as mounted; otherwise keep scanning. -/
def scanMounts (lower upper : List Char) : List (List Char) → Bool
  | [] => false
  | line :: rest =>
    if ¬ listPref "overlay".toList line then scanMounts lower upper rest
    else if line.length = STRING_BUFFER_SIZE then true
    else
      match strstrSuffix "lowerdir=".toList line, strstrSuffix "upperdir=".toList line with
      | some ml, some mu =>
        if ¬ (¬ listPref lower (ml.drop 9) = true ∧ ¬ listPref upper (mu.drop 9) = true) then true
        else scanMounts lower upper rest
      | _, _ => true

/-- Embeds `is_mounted` from main.c: `none` stands for an unreadable
/proc/mounts. -/
def is_mounted (lower upper : List Char) (file : Option (List Char)) : Bool :=
  match file with
  | none => true
  | some content => scanMounts lower upper (readLines content)

/-- The variant of the scan with the buffer-length guard removed, used to
show that guard is dead code. -/
def scanMountsNoGuard (lower upper : List Char) : List (List Char) → Bool
  | [] => false
  | line :: rest =>
    if ¬ listPref "overlay".toList line then scanMountsNoGuard lower upper rest
    else
      match strstrSuffix "lowerdir=".toList line, strstrSuffix "upperdir=".toList line with
      | some ml, some mu =>
        if ¬ (¬ listPref lower (ml.drop 9) = true ∧ ¬ listPref upper (mu.drop 9) = true) then true
        else scanMountsNoGuard lower upper rest
      | _, _ => true

inductive CAction where
  | diff
  | vacuum
  | merge
  deriving DecidableEq

inductive FsTarget where
  | lowerT
  | upperT
  | otherT
  deriving DecidableEq

/-- Filesystem-relevant events of one run of the tool, in order. -/
inductive Ev where
  | lstatEv (t : FsTarget)
  | mkstempsEv (t : FsTarget)
  | fsetxattrEv (t : FsTarget)
  | getxattrEv (t : FsTarget)
  | unlinkEv (t : FsTarget)
  | openMountsEv
  | promptEv
  | createScriptEv (t : FsTarget)
  | runActionEv (a : CAction)
  deriving DecidableEq

/-- Whether the event is a mutating filesystem call (attempted). -/
def mutatingEv : Ev → Bool
  | .mkstempsEv _ => true
  | .fsetxattrEv _ => true
  | .unlinkEv _ => true
  | .createScriptEv _ => true
  | _ => false

def targetEv : Ev → FsTarget
  | .lstatEv t => t
  | .mkstempsEv t => t
  | .fsetxattrEv t => t
  | .getxattrEv t => t
  | .unlinkEv t => t
  | .createScriptEv t => t
  | _ => .otherT

/-- The environment one run of `main` executes against: option parsing
results, filesystem answers, the /proc/mounts content, the interactive
answer, and the outcome of the invoked action. -/
structure Env where
  helpRequested : Bool
  badOption : Bool
  lowerOk : Bool
  upperOk : Bool
  lowerIsDir : Bool
  upperIsDir : Bool
  mkstempsOk : Bool
  fsetxattrOk : Bool
  getxattrVerifies : Bool
  lowerStr : List Char
  upperStr : List Char
  procMounts : Option (List Char)
  answer : Char
  actionArg : Option (Option CAction)
  scriptOk : Bool
  actionFails : Bool
  verbose : Bool

/-- Embeds `check_xattr_trusted`/`real_check_xattr_trusted`: the temp file
is created inside upperdir, gets a trusted xattr written, and is unlinked
again. -/
def xattrTrace (e : Env) : List Ev :=
  Ev.mkstempsEv .upperT ::
    (if e.mkstempsOk then
      [Ev.fsetxattrEv .upperT]
        ++ (if e.fsetxattrOk then [Ev.getxattrEv .upperT] else [])
        ++ [Ev.unlinkEv .upperT]
     else [])

def xattrSucceeds (e : Env) : Bool :=
  e.mkstempsOk && e.fsetxattrOk && e.getxattrVerifies

/-- Embeds the action dispatch block of `main` (lines 170-197). -/
def dispatch (e : Env) (t : List Ev) : Nat × List Ev :=
  match e.actionArg with
  | some (some CAction.diff) =>
    (if e.actionFails then 1 else 0, t ++ [Ev.runActionEv .diff])
  | some (some CAction.vacuum) =>
    if e.scriptOk then
      (if e.actionFails then 1 else 0,
        t ++ [Ev.createScriptEv .otherT, Ev.runActionEv .vacuum])
    else (1, t ++ [Ev.createScriptEv .otherT])
  | some (some CAction.merge) =>
    if e.scriptOk then
      (if e.actionFails then 1 else 0,
        t ++ [Ev.createScriptEv .otherT, Ev.runActionEv .merge])
    else (1, t ++ [Ev.createScriptEv .otherT])
  | some none => (1, t)
  | none => (1, t)

/-- Embeds `main` from main.c: exit code (0 success, 1 failure) and the
ordered filesystem event trace of the run. -/
def mainRun (e : Env) : Nat × List Ev :=
  if e.helpRequested then (0, [])
  else if e.badOption then (1, [])
  else if e.lowerOk = false then (1, [])
  else if e.lowerIsDir = false then (1, [Ev.lstatEv .lowerT])
  else if e.upperOk = false then (1, [Ev.lstatEv .lowerT])
  else if e.upperIsDir = false then (1, [Ev.lstatEv .lowerT, Ev.lstatEv .upperT])
  else
    let t0 := [Ev.lstatEv .lowerT, Ev.lstatEv .upperT] ++ xattrTrace e
    if xattrSucceeds e = false then (1, t0)
    else
      let t1 := t0 ++ [Ev.openMountsEv]
      if is_mounted e.lowerStr e.upperStr e.procMounts then
        let t2 := t1 ++ [Ev.promptEv]
        if e.answer = 'Y' ∨ e.answer = 'y' then dispatch e t2 else (1, t2)
      else dispatch e t1

/-- All validation checks of `main` that precede the dispatch block. -/
def dispatchReached (e : Env) : Prop :=
  e.helpRequested = false ∧ e.badOption = false ∧ e.lowerOk = true ∧
    e.lowerIsDir = true ∧ e.upperOk = true ∧ e.upperIsDir = true ∧
    xattrSucceeds e = true ∧
    (is_mounted e.lowerStr e.upperStr e.procMounts = false ∨
      e.answer = 'Y' ∨ e.answer = 'y')

/-! ### Concrete inputs used by witnesses and counterexamples -/

def m644 : FMeta := ⟨420, 0, 0⟩
def m755 : FMeta := ⟨493, 0, 0⟩

/-- Lower tree: a file `1`, a directory `2` containing file `3`, a file
`4`, and a file `6` that upper modifies. -/
def lcW : FS :=
  .cons 1 (.file m644 [10])
    (.cons 2 (.dir m755 false (.cons 3 (.file m644 [11]) .nil))
      (.cons 4 (.file m644 [12])
        (.cons 6 (.file m644 [14]) .nil)))

/-- Upper tree: file `1` identical (copy-up artifact), directory `2`
opaque containing file `5`, a whiteout over `4`, a new file `7`, and a
modified file `6`. -/
def ucW : FS :=
  .cons 1 (.file m644 [10])
    (.cons 2 (.dir m755 true (.cons 5 (.file m644 [13]) .nil))
      (.cons 4 (.special m644 0 0)
        (.cons 6 (.file m644 [15])
          (.cons 7 (.file m644 [16]) .nil))))

def envDiff : Env :=
  { helpRequested := false
    badOption := false
    lowerOk := true
    upperOk := true
    lowerIsDir := true
    upperIsDir := true
    mkstempsOk := true
    fsetxattrOk := true
    getxattrVerifies := true
    lowerStr := ['/', 'l']
    upperStr := ['/', 'u']
    procMounts := some []
    answer := 'n'
    actionArg := some (some CAction.diff)
    scriptOk := true
    actionFails := false
    verbose := false }

def envVacuum : Env :=
  { envDiff with actionArg := some (some CAction.vacuum) }

def envBadLower : Env :=
  { envDiff with lowerIsDir := false }

/-- The /proc/mounts content for C9: an overlay line longer than the read
buffer, whose buffered 8191-character chunk still contains well-formed,
non-matching lowerdir=/upperdir= fields, followed by the tail of that same
line. -/
def c9head : List Char := "overlay lowerdir=/x upperdir=/y ".toList

def c9content : List Char := c9head ++ List.replicate 8559 'a' ++ ['\n']

def c9chunk1 : List Char := c9head ++ List.replicate 8159 'a'

def c9chunk2 : List Char := List.replicate 400 'a' ++ ['\n']

/-! ### Lemmas: association lists -/

theorem lookupName_cons (m nm : Nat) (t : FNode) (rest : FS) :
    lookupName m (.cons nm t rest) = if nm = m then some t else lookupName m rest := rfl

theorem lookupName_setName_self (n : Nat) (t : FNode) :
    ∀ cs : FS, lookupName n (setName n t cs) = some t
  | .nil => by simp [setName, lookupName]
  | .cons nm u rest => by
    by_cases h : nm = n
    · simp [setName, h, lookupName]
    · simp [setName, h, lookupName, lookupName_setName_self n t rest]

theorem lookupName_setName_ne (m n : Nat) (t : FNode) (h : m ≠ n) :
    ∀ cs : FS, lookupName m (setName n t cs) = lookupName m cs
  | .nil => by simp [setName, lookupName, Ne.symm h]
  | .cons nm u rest => by
    by_cases hn : nm = n
    · subst hn
      simp [setName, lookupName, Ne.symm h]
    · by_cases hm : nm = m
      · subst hm
        simp [setName, hn, lookupName]
      · simp [setName, hn, lookupName, hm, lookupName_setName_ne m n t h rest]

theorem lookupName_removeName_self (n : Nat) :
    ∀ cs : FS, lookupName n (removeName n cs) = none
  | .nil => by simp [removeName, lookupName]
  | .cons nm u rest => by
    by_cases h : nm = n
    · simp [removeName, h, lookupName_removeName_self n rest]
    · simp [removeName, h, lookupName, lookupName_removeName_self n rest]

theorem lookupName_removeName_ne (m n : Nat) (h : m ≠ n) :
    ∀ cs : FS, lookupName m (removeName n cs) = lookupName m cs
  | .nil => by simp [removeName]
  | .cons nm u rest => by
    by_cases hn : nm = n
    · subst hn
      simp [removeName, lookupName, Ne.symm h, lookupName_removeName_ne m nm h rest]
    · by_cases hm : nm = m
      · subst hm
        simp [removeName, hn, lookupName]
      · simp [removeName, hn, lookupName, hm, lookupName_removeName_ne m n h rest]

theorem setName_eq_self (n : Nat) (t : FNode) :
    ∀ cs : FS, lookupName n cs = some t → setName n t cs = cs
  | .nil => by simp [lookupName]
  | .cons nm u rest => by
    by_cases h : nm = n
    · subst h
      rw [lookupName_cons, if_pos rfl]
      intro hu
      injection hu with hu2
      subst hu2
      simp [setName]
    · simp only [lookupName_cons, if_neg h, setName, if_neg h]
      intro hl
      rw [setName_eq_self n t rest hl]

theorem mem_namesF_of_lookupName (n : Nat) :
    ∀ cs : FS, (lookupName n cs).isSome → n ∈ namesF cs
  | .nil => by simp [lookupName]
  | .cons nm u rest => by
    by_cases h : nm = n
    · subst h
      simp [namesF]
    · simp only [lookupName_cons, if_neg h, namesF, List.mem_cons]
      intro hl
      exact Or.inr (mem_namesF_of_lookupName n rest hl)

theorem lookupName_isSome_of_mem (n : Nat) :
    ∀ cs : FS, n ∈ namesF cs → (lookupName n cs).isSome
  | .nil => by simp [namesF]
  | .cons nm u rest => by
    by_cases h : nm = n
    · simp [lookupName, h]
    · simp only [namesF, List.mem_cons, lookupName_cons, if_neg h]
      rintro (rfl | hm)
      · exact absurd rfl h
      · exact lookupName_isSome_of_mem n rest hm

theorem length_namesF_le_sizeF : ∀ cs : FS, (namesF cs).length ≤ sizeF cs
  | .nil => by simp [namesF, sizeF]
  | .cons nm t rest => by
    have h1 : 1 ≤ sizeN t := by
      cases t <;> simp [sizeN]
    have h2 := length_namesF_le_sizeF rest
    simp only [namesF, List.length_cons, sizeF]
    omega

theorem sizeN_le_of_lookupName (n : Nat) (t : FNode) :
    ∀ cs : FS, lookupName n cs = some t → sizeN t ≤ sizeF cs
  | .nil => by simp [lookupName]
  | .cons nm u rest => by
    by_cases h : nm = n
    · simp only [lookupName_cons, if_pos h, Option.some.injEq]
      rintro rfl
      simp only [sizeF]
      omega
    · simp only [lookupName_cons, if_neg h, sizeF]
      intro hl
      have h3 := sizeN_le_of_lookupName n t rest hl
      omega

theorem sizeF_child_lt (n : Nat) (m : FMeta) (o : Bool) (ccs : FS) (cs : FS)
    (h : lookupName n cs = some (.dir m o ccs)) : sizeF ccs < sizeF cs := by
  have h1 := sizeN_le_of_lookupName n _ cs h
  simp only [sizeN] at h1
  omega

/-! ### Lemmas: names, dedup, sorting -/

theorem mem_dedupN (m : Nat) : ∀ l : List Nat, m ∈ dedupN l ↔ m ∈ l
  | [] => by simp [dedupN]
  | n :: rest => by
    by_cases h : m = n
    · subst h
      simp [dedupN]
    · simp [dedupN, List.mem_filter, h, mem_dedupN m rest]

theorem nodup_dedupN : ∀ l : List Nat, (dedupN l).Nodup
  | [] => by simp [dedupN]
  | n :: rest => by
    simp only [dedupN, List.nodup_cons]
    constructor
    · intro hmem
      have h2 := (List.mem_filter.mp hmem).2
      simp at h2
    · exact (nodup_dedupN rest).filter _

theorem length_dedupN_le : ∀ l : List Nat, (dedupN l).length ≤ l.length
  | [] => by simp [dedupN]
  | n :: rest => by
    simp only [dedupN, List.length_cons]
    have h1 := List.length_filter_le (fun m => decide (m ≠ n)) (dedupN rest)
    have h2 := length_dedupN_le rest
    omega

theorem insertSorted_perm (x : Nat) : ∀ l : List Nat, (insertSorted x l).Perm (x :: l)
  | [] => by simp [insertSorted]
  | y :: rest => by
    by_cases h : x ≤ y
    · simp [insertSorted, h]
    · simp only [insertSorted, if_neg h]
      exact ((insertSorted_perm x rest).cons y).trans (List.Perm.swap x y rest)

theorem sortNames_perm : ∀ l : List Nat, (sortNames l).Perm l
  | [] => by simp [sortNames]
  | x :: rest => by
    simp only [sortNames]
    exact (insertSorted_perm x (sortNames rest)).trans ((sortNames_perm rest).cons x)

theorem unionNames_nodup (lc uc : FS) : (unionNames lc uc).Nodup :=
  ((sortNames_perm _).nodup_iff).mpr (nodup_dedupN _)

theorem mem_unionNames (m : Nat) (lc uc : FS) :
    m ∈ unionNames lc uc ↔ m ∈ namesF lc ∨ m ∈ namesF uc := by
  unfold unionNames
  rw [(sortNames_perm _).mem_iff, mem_dedupN, List.mem_append]

theorem length_unionNames_le (lc uc : FS) :
    (unionNames lc uc).length ≤ sizeF lc + sizeF uc := by
  unfold unionNames
  rw [(sortNames_perm _).length_eq]
  have h1 := length_dedupN_le (namesF lc ++ namesF uc)
  have h2 := length_namesF_le_sizeF lc
  have h3 := length_namesF_le_sizeF uc
  simp only [List.length_append] at h1
  omega

/-! ### Lemmas: the walker -/

theorem walkAux_cons (f : Nat) (lc uc : FS) (n : Nat) (rest : List Nat) :
    walkAux (f + 1) lc uc (n :: rest) =
      groupList f lc uc n ++ walkAux f lc uc rest := rfl

theorem walkAux_path_shape :
    ∀ (f : Nat) (lc uc : FS) (ns : List Nat) (p : FPath) (v : Verdict),
      (p, v) ∈ walkAux f lc uc ns → ∃ n q, n ∈ ns ∧ p = n :: q := by
  intro f
  induction f with
  | zero => intro lc uc ns p v h; simp [walkAux] at h
  | succ f ih =>
    intro lc uc ns p v h
    cases ns with
    | nil => simp [walkAux] at h
    | cons n rest =>
      rw [walkAux_cons] at h
      rcases List.mem_append.mp h with h1 | h2
      · simp only [groupList, List.mem_cons] at h1
        rcases h1 with h1 | h1
        · refine ⟨n, [], by simp, ?_⟩
          have := congrArg Prod.fst h1
          simpa using this
        · obtain ⟨pv, hpv, hmap⟩ := List.mem_map.mp h1
          refine ⟨n, pv.1, by simp, ?_⟩
          have := congrArg Prod.fst hmap
          simpa using this.symm
      · obtain ⟨n', q, hn', hp⟩ := ih lc uc rest p v h2
        exact ⟨n', q, by simp [hn'], hp⟩

theorem walkAux_mono :
    ∀ (f g : Nat) (lc uc : FS) (ns : List Nat) (x : FPath × Verdict),
      f ≤ g → x ∈ walkAux f lc uc ns → x ∈ walkAux g lc uc ns := by
  intro f
  induction f with
  | zero => intro g lc uc ns x _ h; simp [walkAux] at h
  | succ f ih =>
    intro g lc uc ns x hle h
    cases g with
    | zero => omega
    | succ g =>
      have hfg : f ≤ g := by omega
      cases ns with
      | nil => simp [walkAux] at h
      | cons n rest =>
        rw [walkAux_cons] at h ⊢
        rcases List.mem_append.mp h with h1 | h2
        · refine List.mem_append.mpr (Or.inl ?_)
          simp only [groupList, List.mem_cons] at h1 ⊢
          rcases h1 with h1 | h1
          · exact Or.inl h1
          · refine Or.inr ?_
            rcases List.mem_map.mp h1 with ⟨pv, hpv, hmap⟩
            refine List.mem_map.mpr ⟨pv, ?_, hmap⟩
            cases hsub : subTrees (lookupName n lc) (lookupName n uc) with
            | none => rw [hsub] at hpv; simp at hpv
            | some pr =>
              obtain ⟨slc, suc⟩ := pr
              rw [hsub] at hpv
              exact ih g slc suc _ pv hfg hpv
        · exact List.mem_append.mpr (Or.inr (ih g lc uc rest x hfg h2))

theorem groupList_mono (f g : Nat) (lc uc : FS) (n : Nat) (x : FPath × Verdict)
    (hle : f ≤ g) (h : x ∈ groupList f lc uc n) : x ∈ groupList g lc uc n := by
  simp only [groupList, List.mem_cons] at h ⊢
  rcases h with h | h
  · exact Or.inl h
  · refine Or.inr ?_
    rcases List.mem_map.mp h with ⟨pv, hpv, hmap⟩
    refine List.mem_map.mpr ⟨pv, ?_, hmap⟩
    cases hsub : subTrees (lookupName n lc) (lookupName n uc) with
    | none => rw [hsub] at hpv; simp at hpv
    | some pr =>
      obtain ⟨slc, suc⟩ := pr
      rw [hsub] at hpv
      exact walkAux_mono f g slc suc _ pv hle hpv

theorem walkAux_intro :
    ∀ (ns : List Nat) (f : Nat) (lc uc : FS) (n : Nat) (x : FPath × Verdict),
      n ∈ ns → ns.length ≤ f → x ∈ groupList (f - ns.length) lc uc n →
      x ∈ walkAux f lc uc ns := by
  intro ns
  induction ns with
  | nil => intro f lc uc n x h; simp at h
  | cons m rest ih =>
    intro f lc uc n x hmem hlen hg
    cases f with
    | zero => simp at hlen
    | succ f =>
      rw [walkAux_cons]
      rcases List.mem_cons.mp hmem with rfl | hmem2
      · refine List.mem_append.mpr (Or.inl ?_)
        refine groupList_mono (f + 1 - (rest.length + 1)) f lc uc n x (by omega) ?_
        simpa using hg
      · refine List.mem_append.mpr (Or.inr ?_)
        refine ih f lc uc n x hmem2 (by simpa using hlen) ?_
        have heq : f + 1 - (m :: rest).length = f - rest.length := by
          simp only [List.length_cons]
          omega
        rw [heq] at hg
        exact hg

theorem walkAux_mem_elim :
    ∀ (f : Nat) (lc uc : FS) (ns : List Nat) (x : FPath × Verdict),
      x ∈ walkAux f lc uc ns →
      ∃ n g, n ∈ ns ∧ g < f ∧ x ∈ groupList g lc uc n := by
  intro f
  induction f with
  | zero => intro lc uc ns x h; simp [walkAux] at h
  | succ f ih =>
    intro lc uc ns x h
    cases ns with
    | nil => simp [walkAux] at h
    | cons n rest =>
      rw [walkAux_cons] at h
      rcases List.mem_append.mp h with h1 | h2
      · exact ⟨n, f, by simp, by omega, h1⟩
      · obtain ⟨n', g, hn', hg, hx⟩ := ih lc uc rest x h2
        exact ⟨n', g, by simp [hn'], by omega, hx⟩

theorem groupList_mem_elim (g : Nat) (lc uc : FS) (n : Nat) (p : FPath) (v : Verdict)
    (h : (p, v) ∈ groupList g lc uc n) :
    (p = [n] ∧ v = classify (lookupName n lc) (lookupName n uc)) ∨
    (∃ q slc suc, p = n :: q ∧
      subTrees (lookupName n lc) (lookupName n uc) = some (slc, suc) ∧
      (q, v) ∈ walkAux g slc suc (unionNames slc suc)) := by
  simp only [groupList, List.mem_cons] at h
  rcases h with h | h
  · left
    have h1 := congrArg Prod.fst h
    have h2 := congrArg Prod.snd h
    simp at h1 h2
    exact ⟨h1, h2⟩
  · right
    rcases List.mem_map.mp h with ⟨pv, hpv, hmap⟩
    cases hsub : subTrees (lookupName n lc) (lookupName n uc) with
    | none => rw [hsub] at hpv; simp at hpv
    | some pr =>
      obtain ⟨slc, suc⟩ := pr
      rw [hsub] at hpv
      have h1 := congrArg Prod.fst hmap
      have h2 := congrArg Prod.snd hmap
      simp at h1 h2
      exact ⟨pv.1, slc, suc, h1.symm, rfl, by rw [← h2]; exact hpv⟩

/-! ### Lemmas: paths and operations -/

theorem lookupPath_single (cs : FS) (n : Nat) : lookupPath cs [n] = lookupName n cs := rfl

theorem lookupPath_cons_of_dir (cs ccs : FS) (n : Nat) (m : FMeta) (o : Bool)
    (q : FPath) (hq : q ≠ []) (h : lookupName n cs = some (.dir m o ccs)) :
    lookupPath cs (n :: q) = lookupPath ccs q := by
  cases q with
  | nil => exact absurd rfl hq
  | cons a b => simp [lookupPath, h]

theorem lookupPath_cons_eq_none (cs : FS) (n : Nat) (q : FPath) (hq : q ≠ [])
    (h : ∀ m o ccs, lookupName n cs ≠ some (.dir m o ccs)) :
    lookupPath cs (n :: q) = none := by
  cases q with
  | nil => exact absurd rfl hq
  | cons a b =>
    cases hl : lookupName n cs with
    | none => simp [lookupPath, hl]
    | some t =>
      cases t with
      | dir m o ccs => exact absurd hl (h m o ccs)
      | file m c => simp [lookupPath, hl]
      | symlink m tg => simp [lookupPath, hl]
      | special m j mi => simp [lookupPath, hl]

theorem lookupName_applyOp_head_ne (n : Nat) (cs : FS) (op : Op)
    (h : opHead op ≠ some n) : lookupName n (applyOp cs op) = lookupName n cs := by
  cases op with
  | clearUpper => rfl
  | deletePath p =>
    cases p with
    | nil => rfl
    | cons m q =>
      have hmn : m ≠ n := by
        intro hc
        exact h (by simp [opHead, pathOf, hc])
      cases q with
      | nil => exact lookupName_removeName_ne n m (Ne.symm hmn) cs
      | cons a b =>
        simp only [applyOp, applyRemove]
        cases hl : lookupName m cs with
        | none => rfl
        | some t =>
          cases t with
          | dir mm o ccs => exact lookupName_setName_ne n m _ (Ne.symm hmn) cs
          | file mm c => rfl
          | symlink mm tg => rfl
          | special mm j mi => rfl
  | removeSubtree p =>
    cases p with
    | nil => rfl
    | cons m q =>
      have hmn : m ≠ n := by
        intro hc
        exact h (by simp [opHead, pathOf, hc])
      cases q with
      | nil => exact lookupName_removeName_ne n m (Ne.symm hmn) cs
      | cons a b =>
        simp only [applyOp, applyRemove]
        cases hl : lookupName m cs with
        | none => rfl
        | some t =>
          cases t with
          | dir mm o ccs => exact lookupName_setName_ne n m _ (Ne.symm hmn) cs
          | file mm c => rfl
          | symlink mm tg => rfl
          | special mm j mi => rfl
  | copyEntry p node =>
    cases p with
    | nil => rfl
    | cons m q =>
      have hmn : m ≠ n := by
        intro hc
        exact h (by simp [opHead, pathOf, hc])
      cases q with
      | nil => exact lookupName_setName_ne n m _ (Ne.symm hmn) cs
      | cons a b =>
        simp only [applyOp, applyCopyEntry]
        cases hl : lookupName m cs with
        | none => exact lookupName_setName_ne n m _ (Ne.symm hmn) cs
        | some t =>
          cases t with
          | dir mm o ccs => exact lookupName_setName_ne n m _ (Ne.symm hmn) cs
          | file mm c => exact lookupName_setName_ne n m _ (Ne.symm hmn) cs
          | symlink mm tg => exact lookupName_setName_ne n m _ (Ne.symm hmn) cs
          | special mm j mi => exact lookupName_setName_ne n m _ (Ne.symm hmn) cs
  | copyTree p node =>
    cases p with
    | nil => rfl
    | cons m q =>
      have hmn : m ≠ n := by
        intro hc
        exact h (by simp [opHead, pathOf, hc])
      cases q with
      | nil => exact lookupName_setName_ne n m _ (Ne.symm hmn) cs
      | cons a b =>
        simp only [applyOp, applyCopyTree]
        cases hl : lookupName m cs with
        | none => exact lookupName_setName_ne n m _ (Ne.symm hmn) cs
        | some t =>
          cases t with
          | dir mm o ccs => exact lookupName_setName_ne n m _ (Ne.symm hmn) cs
          | file mm c => exact lookupName_setName_ne n m _ (Ne.symm hmn) cs
          | symlink mm tg => exact lookupName_setName_ne n m _ (Ne.symm hmn) cs
          | special mm j mi => exact lookupName_setName_ne n m _ (Ne.symm hmn) cs

theorem lookupName_applyOp_head_eq (n : Nat) (cs : FS) (op : Op)
    (h : opHead op = some n) :
    lookupName n (applyOp cs op) = childApply (lookupName n cs) op := by
  cases op with
  | clearUpper => simp [opHead, pathOf] at h
  | deletePath p =>
    cases p with
    | nil => simp [opHead, pathOf] at h
    | cons m q =>
      have hmn : m = n := by simpa [opHead, pathOf] using h
      subst hmn
      cases q with
      | nil =>
        simp only [applyOp, applyRemove, childApply]
        exact lookupName_removeName_self m cs
      | cons a b =>
        simp only [applyOp, applyRemove, childApply]
        cases hl : lookupName m cs with
        | none => simp [hl]
        | some t =>
          cases t with
          | dir mm o ccs => simp [lookupName_setName_self]
          | file mm c => simp [hl]
          | symlink mm tg => simp [hl]
          | special mm j mi => simp [hl]
  | removeSubtree p =>
    cases p with
    | nil => simp [opHead, pathOf] at h
    | cons m q =>
      have hmn : m = n := by simpa [opHead, pathOf] using h
      subst hmn
      cases q with
      | nil =>
        simp only [applyOp, applyRemove, childApply]
        exact lookupName_removeName_self m cs
      | cons a b =>
        simp only [applyOp, applyRemove, childApply]
        cases hl : lookupName m cs with
        | none => simp [hl]
        | some t =>
          cases t with
          | dir mm o ccs => simp [lookupName_setName_self]
          | file mm c => simp [hl]
          | symlink mm tg => simp [hl]
          | special mm j mi => simp [hl]
  | copyEntry p node =>
    cases p with
    | nil => simp [opHead, pathOf] at h
    | cons m q =>
      have hmn : m = n := by simpa [opHead, pathOf] using h
      subst hmn
      cases q with
      | nil =>
        simp only [applyOp, applyCopyEntry, childApply]
        exact lookupName_setName_self m _ cs
      | cons a b =>
        simp only [applyOp, applyCopyEntry, childApply]
        cases hl : lookupName m cs with
        | none => simp [lookupName_setName_self]
        | some t =>
          cases t with
          | dir mm o ccs => simp [lookupName_setName_self]
          | file mm c => simp [lookupName_setName_self]
          | symlink mm tg => simp [lookupName_setName_self]
          | special mm j mi => simp [lookupName_setName_self]
  | copyTree p node =>
    cases p with
    | nil => simp [opHead, pathOf] at h
    | cons m q =>
      have hmn : m = n := by simpa [opHead, pathOf] using h
      subst hmn
      cases q with
      | nil =>
        simp only [applyOp, applyCopyTree, childApply]
        exact lookupName_setName_self m _ cs
      | cons a b =>
        simp only [applyOp, applyCopyTree, childApply]
        cases hl : lookupName m cs with
        | none => simp [lookupName_setName_self]
        | some t =>
          cases t with
          | dir mm o ccs => simp [lookupName_setName_self]
          | file mm c => simp [lookupName_setName_self]
          | symlink mm tg => simp [lookupName_setName_self]
          | special mm j mi => simp [lookupName_setName_self]

theorem lookupName_applyOps (n : Nat) :
    ∀ (ops : List Op) (cs : FS),
      lookupName n (applyOps cs ops) = childApplyOps (lookupName n cs) (filterHead n ops)
  | [], cs => rfl
  | op :: rest, cs => by
    by_cases h : opHead op = some n
    · have hf : filterHead n (op :: rest) = op :: filterHead n rest := by
        simp [filterHead, List.filter_cons, h]
      rw [hf]
      simp only [applyOps, childApplyOps]
      rw [lookupName_applyOps n rest (applyOp cs op), lookupName_applyOp_head_eq n cs op h]
    · have hf : filterHead n (op :: rest) = filterHead n rest := by
        simp [filterHead, List.filter_cons, h]
      rw [hf]
      simp only [applyOps]
      rw [lookupName_applyOps n rest (applyOp cs op), lookupName_applyOp_head_ne n cs op h]

theorem childApplyOps_append (c : Option FNode) :
    ∀ (a b : List Op), childApplyOps c (a ++ b) = childApplyOps (childApplyOps c a) b := by
  intro a
  induction a generalizing c with
  | nil => intro b; rfl
  | cons op rest ih => intro b; simp only [List.cons_append, childApplyOps]; exact ih _ b

theorem applyOps_append (cs : FS) :
    ∀ (a b : List Op), applyOps cs (a ++ b) = applyOps (applyOps cs a) b := by
  intro a
  induction a generalizing cs with
  | nil => intro b; rfl
  | cons op rest ih => intro b; simp only [List.cons_append, applyOps]; exact ih _ b

theorem filterHead_append (n : Nat) (a b : List Op) :
    filterHead n (a ++ b) = filterHead n a ++ filterHead n b := by
  simp [filterHead, List.filter_append]

theorem filterHead_of_all (n : Nat) (ops : List Op)
    (h : ∀ op ∈ ops, opHead op = some n) : filterHead n ops = ops := by
  induction ops with
  | nil => rfl
  | cons op rest ih =>
    have h1 := h op (by simp)
    have h2 := ih (fun o ho => h o (by simp [ho]))
    simp only [filterHead] at h2 ⊢
    simp [List.filter_cons, h1, h2]

theorem filterHead_of_none (n : Nat) (ops : List Op)
    (h : ∀ op ∈ ops, opHead op ≠ some n) : filterHead n ops = [] := by
  induction ops with
  | nil => rfl
  | cons op rest ih =>
    have h1 := h op (by simp)
    simp only [filterHead, List.filter_cons]
    rw [if_neg (by simpa using h1)]
    exact ih (fun o ho => h o (by simp [ho]))

theorem pathOf_mem_opsFor (p : FPath) (v : Verdict) (u : Option FNode) :
    ∀ op ∈ opsFor p v u, pathOf op = some p := by
  intro op hop
  cases v with
  | unchanged => simp [opsFor] at hop
  | added =>
    cases u with
    | none => simp [opsFor] at hop
    | some t =>
      simp only [opsFor, List.mem_singleton] at hop
      simp [hop, pathOf]
  | modified =>
    cases u with
    | none => simp [opsFor] at hop
    | some t =>
      simp only [opsFor, List.mem_singleton] at hop
      simp [hop, pathOf]
  | deleted =>
    simp only [opsFor, List.mem_singleton] at hop
    simp [hop, pathOf]
  | opaqReplaced =>
    cases u with
    | none => simp [opsFor] at hop
    | some t =>
      simp only [opsFor, List.mem_cons, List.not_mem_nil, or_false] at hop
      rcases hop with rfl | rfl <;> simp [pathOf]

theorem opsFor_cons_path (n : Nat) (q : FPath) (v : Verdict) (u : Option FNode) :
    opsFor (n :: q) v u = (opsFor q v u).map (consOp n) := by
  cases v with
  | unchanged => simp [opsFor]
  | added => cases u <;> simp [opsFor, consOp]
  | modified => cases u <;> simp [opsFor, consOp]
  | deleted => simp [opsFor, consOp]
  | opaqReplaced => cases u <;> simp [opsFor, consOp]

theorem opHead_consOp (n : Nat) (op : Op) (p : FPath) (h : pathOf op = some p) :
    opHead (consOp n op) = some n := by
  cases op <;> simp_all [pathOf, consOp, opHead]

theorem planOps_append (uc : FS) :
    ∀ (a b : List (FPath × Verdict)),
      planOps uc (a ++ b) = planOps uc a ++ planOps uc b := by
  intro a
  induction a with
  | nil => intro b; rfl
  | cons pv rest ih =>
    intro b
    simp only [List.cons_append, planOps, List.append_eq] at *
    rw [ih b, List.append_assoc]

theorem mem_planOps (uc : FS) :
    ∀ (w : List (FPath × Verdict)) (op : Op), op ∈ planOps uc w →
      ∃ pv ∈ w, pathOf op = some pv.1 := by
  intro w
  induction w with
  | nil => intro op h; simp [planOps] at h
  | cons pv rest ih =>
    intro op h
    simp only [planOps] at h
    rcases List.mem_append.mp h with h1 | h2
    · exact ⟨pv, by simp, pathOf_mem_opsFor pv.1 pv.2 _ op h1⟩
    · obtain ⟨pv', hpv', hp⟩ := ih op h2
      exact ⟨pv', by simp [hpv'], hp⟩

theorem planOps_map_cons (uc suc : FS) (n : Nat) (um : FMeta) (uo : Bool)
    (hu : lookupName n uc = some (.dir um uo suc)) :
    ∀ (sub : List (FPath × Verdict)), (∀ pv ∈ sub, pv.1 ≠ []) →
      planOps uc (sub.map (fun pv => (n :: pv.1, pv.2))) =
        (planOps suc sub).map (consOp n) := by
  intro sub
  induction sub with
  | nil => intro _; rfl
  | cons pv rest ih =>
    intro hne
    have hq : pv.1 ≠ [] := hne pv (by simp)
    simp only [List.map_cons, planOps]
    rw [lookupPath_cons_of_dir uc suc n um uo pv.1 hq hu]
    rw [opsFor_cons_path, ih (fun x hx => hne x (by simp [hx]))]
    simp [List.map_append]

theorem childApplyOps_deep (n : Nat) (m : FMeta) (o : Bool) :
    ∀ (ops : List Op) (ccs : FS),
      (∀ op ∈ ops, ∃ p, pathOf op = some p ∧ p ≠ []) →
      childApplyOps (some (.dir m o ccs)) (ops.map (consOp n)) =
        some (.dir m o (applyOps ccs ops)) := by
  intro ops
  induction ops with
  | nil => intro ccs _; rfl
  | cons op rest ih =>
    intro ccs hne
    obtain ⟨p, hp, hpne⟩ := hne op (by simp)
    simp only [List.map_cons, childApplyOps, applyOps]
    have hstep : childApply (some (FNode.dir m o ccs)) (consOp n op) =
        some (FNode.dir m o (applyOp ccs op)) := by
      cases op with
      | clearUpper => simp [pathOf] at hp
      | deletePath q =>
        simp only [pathOf, Option.some.injEq] at hp
        subst hp
        cases q with
        | nil => exact absurd rfl hpne
        | cons a b => simp [consOp, childApply, applyOp]
      | removeSubtree q =>
        simp only [pathOf, Option.some.injEq] at hp
        subst hp
        cases q with
        | nil => exact absurd rfl hpne
        | cons a b => simp [consOp, childApply, applyOp]
      | copyEntry q node =>
        simp only [pathOf, Option.some.injEq] at hp
        subst hp
        cases q with
        | nil => exact absurd rfl hpne
        | cons a b => simp [consOp, childApply, applyOp]
      | copyTree q node =>
        simp only [pathOf, Option.some.injEq] at hp
        subst hp
        cases q with
        | nil => exact absurd rfl hpne
        | cons a b => simp [consOp, childApply, applyOp]
    rw [hstep]
    exact ih (applyOp ccs op) (fun x hx => hne x (by simp [hx]))

/-! ### Lemmas: classifier shapes and subtree selection -/

theorem classify_none_some (t : FNode) :
    classify none (some t) =
      if kindOf t = EKind.whiteout then Verdict.modified else Verdict.added := by
  by_cases h : kindOf t = EKind.whiteout <;> simp [classify, h]

theorem classify_none_ne (u : Option FNode) :
    classify none u ≠ Verdict.deleted ∧ classify none u ≠ Verdict.opaqReplaced := by
  cases u with
  | none => simp [classify]
  | some t =>
    rw [classify_none_some]
    by_cases h : kindOf t = EKind.whiteout <;> simp [h]

theorem subTrees_some_shape (l u : Option FNode) (slc suc : FS)
    (h : subTrees l u = some (slc, suc)) : ∃ m o, u = some (.dir m o suc) := by
  cases u with
  | none => simp [subTrees] at h
  | some t =>
    cases t with
    | dir m o ucs =>
      refine ⟨m, o, ?_⟩
      simp only [subTrees] at h
      split at h
      · simp_all
      · split at h
        · simp_all
        · split at h
          · split at h
            · simp_all
            · simp_all
          · simp_all
    | file m c => simp [subTrees] at h
    | symlink m tg => simp [subTrees] at h
    | special m j mi => simp [subTrees] at h

theorem subTrees_lower_none (u : Option FNode) (slc suc : FS)
    (h : subTrees none u = some (slc, suc)) :
    slc = FS.nil ∧ ∃ m o, u = some (.dir m o suc) := by
  obtain ⟨m, o, rfl⟩ := subTrees_some_shape none u slc suc h
  refine ⟨?_, m, o, rfl⟩
  have hcl : classify none (some (FNode.dir m o suc)) = Verdict.added := by
    rw [classify_none_some]
    simp [kindOf]
  simp only [subTrees, hcl] at h
  simp at h
  exact h.symm

/-! ### Lemmas: the walk with an absent lower side -/

theorem walk_lower_nil_shape :
    ∀ (f : Nat) (cs : FS) (ns : List Nat),
      (∀ n ∈ ns, (lookupName n cs).isSome) →
      ∀ (q : FPath) (v : Verdict), (q, v) ∈ walkAux f FS.nil cs ns →
        ∃ t, lookupPath cs q = some t ∧ v = classify none (some t) := by
  intro f
  induction f with
  | zero => intro cs ns _ q v h; simp [walkAux] at h
  | succ f ih =>
    intro cs ns hns q v h
    obtain ⟨n, g, hn, hg, hgr⟩ := walkAux_mem_elim (f + 1) _ cs ns (q, v) h
    rcases groupList_mem_elim g _ cs n q v hgr with ⟨rfl, hv⟩ | ⟨q', slc, suc, rfl, hsub, hmem⟩
    · have hsome := hns n hn
      cases hu : lookupName n cs with
      | none => rw [hu] at hsome; simp at hsome
      | some t =>
        refine ⟨t, by simp [lookupPath_single, hu], ?_⟩
        rw [hv, hu]
        simp [lookupName]
    · have hln : lookupName n FS.nil = none := rfl
      rw [hln] at hsub
      obtain ⟨hslc, m, o, hu⟩ := subTrees_lower_none _ slc suc hsub
      subst hslc
      have hns' : ∀ n' ∈ unionNames FS.nil suc, (lookupName n' suc).isSome := by
        intro n' hn'
        rcases (mem_unionNames n' FS.nil suc).mp hn' with h1 | h1
        · simp [namesF] at h1
        · exact lookupName_isSome_of_mem n' suc h1
      have hmono := walkAux_mono g f FS.nil suc (unionNames FS.nil suc) (q', v) (by omega) hmem
      obtain ⟨t, hlp, hv⟩ := ih suc (unionNames FS.nil suc) hns' q' v hmono
      have hq' : q' ≠ [] := by
        intro hc
        rw [hc] at hlp
        simp [lookupPath] at hlp
      refine ⟨t, ?_, hv⟩
      rw [lookupPath_cons_of_dir cs suc n m o q' hq' hu]
      exact hlp

theorem walk_lower_nil_complete :
    ∀ (q : FPath) (cs : FS) (t : FNode) (f : Nat),
      lookupPath cs q = some t →
      walkNeed FS.nil cs (unionNames FS.nil cs) ≤ f →
      (q, classify none (some t)) ∈ walkAux f FS.nil cs (unionNames FS.nil cs) := by
  intro q
  induction q with
  | nil => intro cs t f h; simp [lookupPath] at h
  | cons n q' ih =>
    intro cs t f h hf
    have hun : (unionNames FS.nil cs).length ≤ sizeF cs := by
      have := length_unionNames_le FS.nil cs
      simpa [sizeF] using this
    have hsome : (lookupName n cs).isSome := by
      cases q' with
      | nil =>
        rw [lookupPath_single] at h
        simp [h]
      | cons a b =>
        simp only [lookupPath] at h
        cases hl : lookupName n cs with
        | none => rw [hl] at h; simp at h
        | some t2 => simp
    have hmem : n ∈ unionNames FS.nil cs := by
      rw [mem_unionNames]
      exact Or.inr (mem_namesF_of_lookupName n cs hsome)
    have hlen : (unionNames FS.nil cs).length ≤ f := by
      unfold walkNeed at hf
      omega
    refine walkAux_intro (unionNames FS.nil cs) f FS.nil cs n _ hmem hlen ?_
    cases q' with
    | nil =>
      rw [lookupPath_single] at h
      simp only [groupList, List.mem_cons]
      left
      have hln : lookupName n FS.nil = none := rfl
      rw [hln, h]
    | cons a b =>
      simp only [lookupPath] at h
      cases hl : lookupName n cs with
      | none => rw [hl] at h; simp at h
      | some node =>
        cases node with
        | dir m o ccs =>
          rw [hl] at h
          have hcl : classify none (some (FNode.dir m o ccs)) = Verdict.added := by
            rw [classify_none_some]
            simp [kindOf]
          have hsub : subTrees (lookupName n FS.nil) (lookupName n cs) =
              some (FS.nil, ccs) := by
            have hln : lookupName n FS.nil = none := rfl
            rw [hln, hl]
            simp only [subTrees, hcl]
            simp
          have hccs : sizeF ccs < sizeF cs := sizeF_child_lt n m o ccs cs hl
          have hneed : walkNeed FS.nil ccs (unionNames FS.nil ccs) ≤
              f - (unionNames FS.nil cs).length := by
            unfold walkNeed at hf ⊢
            simp only [sizeF, Nat.zero_add] at hf ⊢
            have h1 : (unionNames FS.nil ccs).length ≤ sizeF ccs := by
              have hh := length_unionNames_le FS.nil ccs
              simpa [sizeF] using hh
            have h2 : sizeF ccs * sizeF ccs + sizeF ccs + 1 ≤ sizeF cs * sizeF cs := by
              nlinarith
            omega
          have hsubmem := ih ccs t (f - (unionNames FS.nil cs).length) h hneed
          simp only [groupList, hsub, List.mem_cons]
          right
          refine List.mem_map.mpr ⟨(a :: b, classify none (some t)), hsubmem, rfl⟩
        | file m c => rw [hl] at h; simp at h
        | symlink m tg => rw [hl] at h; simp at h
        | special m j mi => rw [hl] at h; simp at h

/-! ### Lemmas: copying an already-identical subtree is the identity -/

theorem placeEntry_self (t : FNode) : placeEntry (some t) t = t := by
  cases t <;> simp [placeEntry]

theorem applyCopyEntry_deep_dir (cs ccs : FS) (n : Nat) (m : FMeta) (o : Bool)
    (q : FPath) (hq : q ≠ []) (node : FNode)
    (hl : lookupName n cs = some (.dir m o ccs)) :
    applyCopyEntry cs (n :: q) node =
      setName n (.dir m o (applyCopyEntry ccs q node)) cs := by
  cases q with
  | nil => exact absurd rfl hq
  | cons a b => simp [applyCopyEntry, hl]

theorem applyCopyEntry_self :
    ∀ (p : FPath) (cs : FS) (t : FNode),
      lookupPath cs p = some t → applyCopyEntry cs p t = cs := by
  intro p
  induction p with
  | nil => intro cs t h; simp [lookupPath] at h
  | cons n q ih =>
    intro cs t h
    cases q with
    | nil =>
      rw [lookupPath_single] at h
      simp only [applyCopyEntry]
      rw [h, placeEntry_self]
      exact setName_eq_self n t cs h
    | cons a b =>
      simp only [lookupPath] at h
      cases hl : lookupName n cs with
      | none => rw [hl] at h; simp at h
      | some node =>
        cases node with
        | dir m o ccs =>
          rw [hl] at h
          rw [applyCopyEntry_deep_dir cs ccs n m o (a :: b) (by simp) t hl]
          rw [ih ccs t h]
          exact setName_eq_self n _ cs hl
        | file m c => rw [hl] at h; simp at h
        | symlink m tg => rw [hl] at h; simp at h
        | special m j mi => rw [hl] at h; simp at h

theorem mem_planOps_strong (uc : FS) :
    ∀ (w : List (FPath × Verdict)) (op : Op), op ∈ planOps uc w →
      ∃ pv ∈ w, op ∈ opsFor pv.1 pv.2 (lookupPath uc pv.1) := by
  intro w
  induction w with
  | nil => intro op h; simp [planOps] at h
  | cons pv rest ih =>
    intro op h
    simp only [planOps] at h
    rcases List.mem_append.mp h with h1 | h2
    · exact ⟨pv, by simp, h1⟩
    · obtain ⟨pv2, hpv2, ho⟩ := ih op h2
      exact ⟨pv2, by simp [hpv2], ho⟩

theorem plan_lower_nil_shape
    (f : Nat) (cs : FS) (ns : List Nat)
    (hns : ∀ n ∈ ns, (lookupName n cs).isSome) :
    ∀ op ∈ planOps cs (walkAux f FS.nil cs ns),
      ∃ p t, op = Op.copyEntry p t ∧ lookupPath cs p = some t := by
  intro op hop
  obtain ⟨pv, hpv, hopsf⟩ := mem_planOps_strong cs _ op hop
  obtain ⟨t, hlp, hv⟩ := walk_lower_nil_shape f cs ns hns pv.1 pv.2 hpv
  refine ⟨pv.1, t, ?_, hlp⟩
  rw [hv, classify_none_some] at hopsf
  rw [hlp] at hopsf
  by_cases hw : kindOf t = EKind.whiteout
  · rw [if_pos hw] at hopsf
    simpa [opsFor] using hopsf
  · rw [if_neg hw] at hopsf
    simpa [opsFor] using hopsf

theorem applyOps_self_of_copies :
    ∀ (ops : List Op) (cs : FS),
      (∀ op ∈ ops, ∃ p t, op = Op.copyEntry p t ∧ lookupPath cs p = some t) →
      applyOps cs ops = cs := by
  intro ops
  induction ops with
  | nil => intro cs _; rfl
  | cons op rest ih =>
    intro cs h
    obtain ⟨p, t, rfl, hlp⟩ := h op (by simp)
    simp only [applyOps, applyOp]
    rw [applyCopyEntry_self p cs t hlp]
    exact ih cs (fun o ho => h o (by simp [ho]))

theorem apply_plan_lower_nil (f : Nat) (cs : FS) (ns : List Nat)
    (hns : ∀ n ∈ ns, (lookupName n cs).isSome) :
    applyOps cs (planOps cs (walkAux f FS.nil cs ns)) = cs :=
  applyOps_self_of_copies _ cs (plan_lower_nil_shape f cs ns hns)

/-! ### Lemmas: assembling the merged lower tree -/

theorem entryMatches_refl : ∀ x : Option FNode, entryMatches x x := by
  intro x
  cases x with
  | none => simp [entryMatches]
  | some t => cases t <;> simp [entryMatches]

theorem lookupPath_congr_head (X Y : FS) (n : Nat) (q : FPath)
    (h : lookupName n X = lookupName n Y) :
    lookupPath X (n :: q) = lookupPath Y (n :: q) := by
  cases q with
  | nil => simpa [lookupPath_single] using h
  | cons a b =>
    simp only [lookupPath]
    rw [h]

theorem groupList_fst_shape (g : Nat) (lc uc : FS) (n : Nat) (pv : FPath × Verdict)
    (h : pv ∈ groupList g lc uc n) : ∃ q, pv.1 = n :: q := by
  obtain ⟨pp, vv⟩ := pv
  rcases groupList_mem_elim g lc uc n pp vv h with ⟨h1, _⟩ | ⟨q, slc, suc, h1, _, _⟩
  · exact ⟨[], by simp [h1]⟩
  · exact ⟨q, by simp [h1]⟩

theorem planOps_group_heads (g : Nat) (lc uc : FS) (n : Nat) :
    ∀ op ∈ planOps uc (groupList g lc uc n), opHead op = some n := by
  intro op hop
  obtain ⟨pv, hpv, hopsf⟩ := mem_planOps_strong uc _ op hop
  have hpath := pathOf_mem_opsFor pv.1 pv.2 _ op hopsf
  obtain ⟨q, hq⟩ := groupList_fst_shape g lc uc n pv hpv
  rw [hq] at hpath
  simp [opHead, hpath]

theorem planOps_walk_heads (f : Nat) (lc uc : FS) (ns : List Nat) :
    ∀ op ∈ planOps uc (walkAux f lc uc ns), ∃ n ∈ ns, opHead op = some n := by
  intro op hop
  obtain ⟨pv, hpv, hopsf⟩ := mem_planOps_strong uc _ op hop
  have hpath := pathOf_mem_opsFor pv.1 pv.2 _ op hopsf
  obtain ⟨n, q, hn, hq⟩ := walkAux_path_shape f lc uc ns pv.1 pv.2 (by
    obtain ⟨pp, vv⟩ := pv
    exact hpv)
  rw [hq] at hpath
  exact ⟨n, hn, by simp [opHead, hpath]⟩

theorem planOps_walk_paths_ne (f : Nat) (slc suc uc2 : FS) (ns : List Nat) :
    ∀ op ∈ planOps uc2 (walkAux f slc suc ns), ∃ p, pathOf op = some p ∧ p ≠ [] := by
  intro op hop
  obtain ⟨pv, hpv, hopsf⟩ := mem_planOps_strong uc2 _ op hop
  have hpath := pathOf_mem_opsFor pv.1 pv.2 _ op hopsf
  obtain ⟨n, q, hn, hq⟩ := walkAux_path_shape f slc suc ns pv.1 pv.2 (by
    obtain ⟨pp, vv⟩ := pv
    exact hpv)
  exact ⟨pv.1, hpath, by simp [hq]⟩

theorem lookupName_final (f' : Nat) (lc uc : FS) (n : Nat) (rest : List Nat)
    (hn : n ∉ rest) :
    lookupName n (applyOps lc (planOps uc (walkAux (f' + 1) lc uc (n :: rest)))) =
      childApplyOps (lookupName n lc) (planOps uc (groupList f' lc uc n)) := by
  rw [walkAux_cons, planOps_append, lookupName_applyOps, filterHead_append]
  rw [filterHead_of_all n _ (planOps_group_heads f' lc uc n)]
  rw [filterHead_of_none n _ ?hnone, List.append_nil]
  case hnone =>
    intro op hop hc
    obtain ⟨n', hn', hh⟩ := planOps_walk_heads f' lc uc rest op hop
    rw [hh] at hc
    injection hc with hc2
    exact hn (hc2 ▸ hn')

theorem lookupName_final_other (f' : Nat) (lc uc : FS) (n n' : Nat) (rest : List Nat)
    (hne : n' ≠ n) :
    lookupName n' (applyOps lc (planOps uc (walkAux (f' + 1) lc uc (n :: rest)))) =
      lookupName n' (applyOps lc (planOps uc (walkAux f' lc uc rest))) := by
  rw [walkAux_cons, planOps_append, lookupName_applyOps, filterHead_append]
  rw [filterHead_of_none n' _ ?hnone, List.nil_append, ← lookupName_applyOps]
  case hnone =>
    intro op hop hc
    have hh := planOps_group_heads f' lc uc n op hop
    rw [hh] at hc
    injection hc with hc2
    exact hne hc2.symm

theorem planOps_group_eq (g : Nat) (lc uc slc suc : FS) (n : Nat) (um : FMeta) (uo : Bool)
    (hu : lookupName n uc = some (.dir um uo suc))
    (hsub : subTrees (lookupName n lc) (lookupName n uc) = some (slc, suc)) :
    planOps uc (groupList g lc uc n) =
      opsFor [n] (classify (lookupName n lc) (lookupName n uc)) (some (.dir um uo suc)) ++
        (planOps suc (walkAux g slc suc (unionNames slc suc))).map (consOp n) := by
  simp only [groupList]
  rw [hsub]
  simp only [planOps]
  rw [lookupPath_single, hu]
  congr 1
  refine planOps_map_cons uc suc n um uo hu _ ?_
  intro pv hpv
  obtain ⟨n2, q2, _, hq2⟩ := walkAux_path_shape g slc suc _ pv.1 pv.2 (by
    obtain ⟨pp, vv⟩ := pv
    exact hpv)
  simp [hq2]

theorem planOps_group_eq_none (g : Nat) (lc uc : FS) (n : Nat)
    (hsub : subTrees (lookupName n lc) (lookupName n uc) = none) :
    planOps uc (groupList g lc uc n) =
      opsFor [n] (classify (lookupName n lc) (lookupName n uc)) (lookupName n uc) := by
  simp only [groupList]
  rw [hsub]
  simp only [List.map_nil, planOps]
  rw [lookupPath_single]
  simp

theorem kindOf_special_ne_directory (m : FMeta) (j k : Nat) :
    kindOf (.special m j k) ≠ EKind.directory := by
  cases j <;> cases k <;> simp [kindOf]

theorem classify_none_dir (um : FMeta) (uo : Bool) (ucs : FS) :
    classify none (some (.dir um uo ucs)) = Verdict.added := by
  simp [classify, kindOf]

theorem classify_dir_dir_true (lm um : FMeta) (lo : Bool) (lcs ucs : FS) :
    classify (some (.dir lm lo lcs)) (some (.dir um true ucs)) = Verdict.opaqReplaced := by
  simp [classify, kindOf]

theorem classify_dir_dir_false (lm um : FMeta) (lo : Bool) (lcs ucs : FS) :
    classify (some (.dir lm lo lcs)) (some (.dir um false ucs)) =
      if entryEq (.dir lm lo lcs) (.dir um false ucs) then Verdict.unchanged
      else Verdict.modified := by
  simp [classify, kindOf]

theorem classify_kind_mismatch (lt ut : FNode) (hw : kindOf ut ≠ EKind.whiteout)
    (hk : kindOf lt ≠ kindOf ut) :
    classify (some lt) (some ut) = Verdict.modified := by
  simp only [classify, if_neg hw, if_neg hk]

theorem entryMatches_placeEntry (c : Option FNode) (ut : FNode) :
    entryMatches (some (placeEntry c ut)) (some ut) := by
  cases ut with
  | file m c2 => simp [placeEntry, entryMatches]
  | symlink m t => simp [placeEntry, entryMatches]
  | special m j k => simp [placeEntry, entryMatches]
  | dir m o ccs =>
    cases c with
    | none => simp [placeEntry, entryMatches]
    | some e =>
      cases e with
      | dir m2 o2 ecs => simp [placeEntry, entryMatches]
      | file m2 c2 => simp [placeEntry, entryMatches]
      | symlink m2 t2 => simp [placeEntry, entryMatches]
      | special m2 j2 k2 => simp [placeEntry, entryMatches]

theorem unionNames_nil_isSome (cs : FS) :
    ∀ n ∈ unionNames FS.nil cs, (lookupName n cs).isSome := by
  intro n hn
  rcases (mem_unionNames n FS.nil cs).mp hn with h1 | h1
  · simp [namesF] at h1
  · exact lookupName_isSome_of_mem n cs h1

theorem master_head_nosub
    (f : Nat) (lc uc : FS) (n : Nat) (rest : List Nat) (hnrest : n ∉ rest)
    (ut : FNode) (hu : lookupName n uc = some ut)
    (hsubeq : subTrees (lookupName n lc) (lookupName n uc) = none) :
    (classify (lookupName n lc) (some ut) = Verdict.deleted →
      lookupPath (applyOps lc (planOps uc (walkAux (f + 1) lc uc (n :: rest)))) [n] = none) ∧
    ((classify (lookupName n lc) (some ut) = Verdict.added ∨
      classify (lookupName n lc) (some ut) = Verdict.modified) →
      entryMatches
        (lookupPath (applyOps lc (planOps uc (walkAux (f + 1) lc uc (n :: rest)))) [n])
        (lookupPath uc [n])) ∧
    (classify (lookupName n lc) (some ut) = Verdict.opaqReplaced →
      lookupPath (applyOps lc (planOps uc (walkAux (f + 1) lc uc (n :: rest)))) [n] =
        lookupPath uc [n]) := by
  have hfinal := lookupName_final f lc uc n rest hnrest
  rw [planOps_group_eq_none f lc uc n hsubeq] at hfinal
  rw [hu] at hfinal
  refine ⟨?_, ?_, ?_⟩
  · intro hv
    rw [hv] at hfinal
    rw [lookupPath_single, hfinal]
    simp [opsFor, childApplyOps, childApply]
  · intro hv
    have hops : opsFor [n] (classify (lookupName n lc) (some ut)) (some ut) =
        [Op.copyEntry [n] ut] := by
      rcases hv with hv | hv <;> rw [hv] <;> simp [opsFor]
    rw [hops] at hfinal
    rw [lookupPath_single, hfinal, lookupPath_single, hu]
    simp only [childApplyOps, childApply]
    exact entryMatches_placeEntry (lookupName n lc) ut
  · intro hv
    rw [hv] at hfinal
    rw [lookupPath_single, hfinal, lookupPath_single, hu]
    simp [opsFor, childApplyOps, childApply]

theorem lookupName_final_dir
    (f : Nat) (lc uc : FS) (n : Nat) (rest : List Nat) (hnrest : n ∉ rest)
    (slc suc : FS) (um : FMeta) (uo : Bool)
    (hu : lookupName n uc = some (.dir um uo suc))
    (hsubeq : subTrees (lookupName n lc) (lookupName n uc) = some (slc, suc))
    (M : FMeta) (O : Bool) (CS : FS)
    (hhead : childApplyOps (lookupName n lc)
        (opsFor [n] (classify (lookupName n lc) (lookupName n uc)) (some (.dir um uo suc)))
        = some (.dir M O CS)) :
    lookupName n (applyOps lc (planOps uc (walkAux (f + 1) lc uc (n :: rest)))) =
      some (.dir M O
        (applyOps CS (planOps suc (walkAux f slc suc (unionNames slc suc))))) := by
  rw [lookupName_final f lc uc n rest hnrest,
    planOps_group_eq f lc uc slc suc n um uo hu hsubeq,
    childApplyOps_append, hhead]
  exact childApplyOps_deep n M O _ CS (planOps_walk_paths_ne f slc suc suc _)

theorem descend_transfer (LFS uc X suc : FS) (n : Nat) (q : FPath) (v : Verdict)
    (M um : FMeta) (O uo : Bool) (hq : q ≠ [])
    (hL : lookupName n LFS = some (.dir M O X))
    (hu : lookupName n uc = some (.dir um uo suc))
    (ha : v = Verdict.deleted → lookupPath X q = none)
    (hb : (v = Verdict.added ∨ v = Verdict.modified) →
      entryMatches (lookupPath X q) (lookupPath suc q))
    (hc : v = Verdict.opaqReplaced → lookupPath X q = lookupPath suc q) :
    (v = Verdict.deleted → lookupPath LFS (n :: q) = none) ∧
    ((v = Verdict.added ∨ v = Verdict.modified) →
      entryMatches (lookupPath LFS (n :: q)) (lookupPath uc (n :: q))) ∧
    (v = Verdict.opaqReplaced → lookupPath LFS (n :: q) = lookupPath uc (n :: q)) := by
  rw [lookupPath_cons_of_dir LFS X n M O q hq hL,
    lookupPath_cons_of_dir uc suc n um uo q hq hu]
  exact ⟨ha, hb, hc⟩

/-- Modelled from the spec: main correctness of the merge planner over the
walk stream, proven per level.  After applying all planned operations to the
lower children, every `deleted` path is absent, every `added`/`modified`
path matches the prior upper entry, and every `opaqReplaced` path carries
exactly the prior upper subtree. -/
theorem merge_master :
    ∀ (f : Nat) (lc uc : FS) (ns : List Nat), ns.Nodup →
      ∀ (p : FPath) (v : Verdict), (p, v) ∈ walkAux f lc uc ns →
        (v = Verdict.deleted →
          lookupPath (applyOps lc (planOps uc (walkAux f lc uc ns))) p = none) ∧
        ((v = Verdict.added ∨ v = Verdict.modified) →
          entryMatches (lookupPath (applyOps lc (planOps uc (walkAux f lc uc ns))) p)
            (lookupPath uc p)) ∧
        (v = Verdict.opaqReplaced →
          lookupPath (applyOps lc (planOps uc (walkAux f lc uc ns))) p =
            lookupPath uc p) := by
  intro f
  induction f with
  | zero => intro lc uc ns _ p v h; simp [walkAux] at h
  | succ f ih =>
    intro lc uc ns hnd p v h
    cases ns with
    | nil => simp [walkAux] at h
    | cons n rest =>
      simp only [List.nodup_cons] at hnd
      obtain ⟨hnrest, hndrest⟩ := hnd
      rw [walkAux_cons] at h
      rcases List.mem_append.mp h with hG | hR
      · -- the pair comes from this name's group
        rcases groupList_mem_elim f lc uc n p v hG with ⟨hp, hv⟩ | ⟨q, slc, suc, hp, hsub, hqmem⟩
        · -- head emission for name n
          subst hp
          subst hv
          cases hu : lookupName n uc with
          | none =>
            refine ⟨fun hc => ?_, fun hc => ?_, fun hc => ?_⟩
            · simp [classify] at hc
            · rcases hc with hc | hc <;> simp [classify] at hc
            · simp [classify] at hc
          | some ut =>
            cases ut with
            | file um cc =>
              have hsubeq : subTrees (lookupName n lc) (lookupName n uc) = none := by
                rw [hu]
                simp [subTrees]
              exact master_head_nosub f lc uc n rest hnrest _ hu hsubeq
            | symlink um tg =>
              have hsubeq : subTrees (lookupName n lc) (lookupName n uc) = none := by
                rw [hu]
                simp [subTrees]
              exact master_head_nosub f lc uc n rest hnrest _ hu hsubeq
            | special um j k =>
              have hsubeq : subTrees (lookupName n lc) (lookupName n uc) = none := by
                rw [hu]
                simp [subTrees]
              exact master_head_nosub f lc uc n rest hnrest _ hu hsubeq
            | dir um uo ucs =>
              cases hl : lookupName n lc with
              | none =>
                have hsubeq : subTrees (lookupName n lc) (lookupName n uc) =
                    some (FS.nil, ucs) := by
                  rw [hl, hu]
                  simp [subTrees, classify_none_dir]
                have hhead : childApplyOps (lookupName n lc)
                    (opsFor [n] (classify (lookupName n lc) (lookupName n uc))
                      (some (.dir um uo ucs))) = some (.dir um uo FS.nil) := by
                  rw [hl, hu, classify_none_dir]
                  simp [opsFor, childApplyOps, childApply, placeEntry]
                have hchild := lookupName_final_dir f lc uc n rest hnrest FS.nil ucs
                  um uo hu hsubeq um uo FS.nil hhead
                refine ⟨fun hc => ?_, fun hc => ?_, fun hc => ?_⟩
                · rw [classify_none_dir] at hc; simp at hc
                · rw [lookupPath_single, hchild, lookupPath_single, hu]
                  simp [entryMatches]
                · rw [classify_none_dir] at hc; simp at hc
              | some lt =>
                cases lt with
                | dir lm lo lcs =>
                  cases uo with
                  | true =>
                    have hsubeq : subTrees (lookupName n lc) (lookupName n uc) =
                        some (FS.nil, ucs) := by
                      rw [hl, hu]
                      simp [subTrees, classify_dir_dir_true]
                    have hhead : childApplyOps (lookupName n lc)
                        (opsFor [n] (classify (lookupName n lc) (lookupName n uc))
                          (some (.dir um true ucs))) = some (.dir um true ucs) := by
                      rw [hl, hu, classify_dir_dir_true]
                      simp [opsFor, childApplyOps, childApply]
                    have hchild := lookupName_final_dir f lc uc n rest hnrest FS.nil ucs
                      um true hu hsubeq um true ucs hhead
                    rw [apply_plan_lower_nil f ucs _ (unionNames_nil_isSome ucs)] at hchild
                    refine ⟨fun hc => ?_, fun hc => ?_, fun hc => ?_⟩
                    · rw [classify_dir_dir_true] at hc; simp at hc
                    · rcases hc with hc | hc <;>
                        (rw [classify_dir_dir_true] at hc; simp at hc)
                    · rw [lookupPath_single, hchild, lookupPath_single, hu]
                  | false =>
                    by_cases he : entryEq (.dir lm lo lcs) (.dir um false ucs) = true
                    · refine ⟨fun hc => ?_, fun hc => ?_, fun hc => ?_⟩
                      · rw [classify_dir_dir_false, if_pos he] at hc; simp at hc
                      · rcases hc with hc | hc <;>
                          (rw [classify_dir_dir_false, if_pos he] at hc; simp at hc)
                      · rw [classify_dir_dir_false, if_pos he] at hc; simp at hc
                    · have hsubeq : subTrees (lookupName n lc) (lookupName n uc) =
                          some (lcs, ucs) := by
                        rw [hl, hu]
                        simp [subTrees, classify_dir_dir_false, he]
                      have hhead : childApplyOps (lookupName n lc)
                          (opsFor [n] (classify (lookupName n lc) (lookupName n uc))
                            (some (.dir um false ucs))) = some (.dir um false lcs) := by
                        rw [hl, hu, classify_dir_dir_false, if_neg he]
                        simp [opsFor, childApplyOps, childApply, placeEntry]
                      have hchild := lookupName_final_dir f lc uc n rest hnrest lcs ucs
                        um false hu hsubeq um false lcs hhead
                      refine ⟨fun hc => ?_, fun hc => ?_, fun hc => ?_⟩
                      · rw [classify_dir_dir_false, if_neg he] at hc; simp at hc
                      · rw [lookupPath_single, hchild, lookupPath_single, hu]
                        simp [entryMatches]
                      · rw [classify_dir_dir_false, if_neg he] at hc; simp at hc
                | file lm cc =>
                  have hcv : classify (lookupName n lc) (lookupName n uc) =
                      Verdict.modified := by
                    rw [hl, hu]
                    exact classify_kind_mismatch _ _ (by simp [kindOf]) (by simp [kindOf])
                  have hsubeq : subTrees (lookupName n lc) (lookupName n uc) = none := by
                    rw [hl, hu] at hcv ⊢
                    simp [subTrees, hcv]
                  have hall := master_head_nosub f lc uc n rest hnrest _ hu hsubeq
                  rw [hl] at hall
                  exact hall
                | symlink lm tg =>
                  have hcv : classify (lookupName n lc) (lookupName n uc) =
                      Verdict.modified := by
                    rw [hl, hu]
                    exact classify_kind_mismatch _ _ (by simp [kindOf]) (by simp [kindOf])
                  have hsubeq : subTrees (lookupName n lc) (lookupName n uc) = none := by
                    rw [hl, hu] at hcv ⊢
                    simp [subTrees, hcv]
                  have hall := master_head_nosub f lc uc n rest hnrest _ hu hsubeq
                  rw [hl] at hall
                  exact hall
                | special lm j k =>
                  have hcv : classify (lookupName n lc) (lookupName n uc) =
                      Verdict.modified := by
                    rw [hl, hu]
                    exact classify_kind_mismatch _ _ (by simp [kindOf])
                      (kindOf_special_ne_directory lm j k)
                  have hsubeq : subTrees (lookupName n lc) (lookupName n uc) = none := by
                    rw [hl, hu] at hcv ⊢
                    simp [subTrees, hcv]
                  have hall := master_head_nosub f lc uc n rest hnrest _ hu hsubeq
                  rw [hl] at hall
                  exact hall
        · -- a descendant below name n
          subst hp
          obtain ⟨um, uo, hu⟩ := subTrees_some_shape (lookupName n lc) (lookupName n uc)
            slc suc hsub
          obtain ⟨n2, q2, hn2, hq2⟩ := walkAux_path_shape f slc suc _ q v hqmem
          have hqne : q ≠ [] := by simp [hq2]
          cases hl : lookupName n lc with
          | none =>
            have hsubeq : subTrees (lookupName n lc) (lookupName n uc) =
                some (FS.nil, suc) := by
              rw [hl, hu]
              simp [subTrees, classify_none_dir]
            have hslc : slc = FS.nil := by
              rw [hsub] at hsubeq
              exact congrArg Prod.fst (Option.some.inj hsubeq)
            subst hslc
            have hhead : childApplyOps (lookupName n lc)
                (opsFor [n] (classify (lookupName n lc) (lookupName n uc))
                  (some (.dir um uo suc))) = some (.dir um uo FS.nil) := by
              rw [hl, hu, classify_none_dir]
              simp [opsFor, childApplyOps, childApply, placeEntry]
            have hchild := lookupName_final_dir f lc uc n rest hnrest FS.nil suc
              um uo hu hsubeq um uo FS.nil hhead
            have hIH := ih FS.nil suc (unionNames FS.nil suc) (unionNames_nodup _ _) q v hqmem
            exact descend_transfer _ uc _ suc n q v um um uo uo hqne hchild hu
              hIH.1 hIH.2.1 hIH.2.2
          | some lt =>
            cases lt with
            | dir lm lo lcs =>
              cases uo with
              | true =>
                have hsubeq : subTrees (lookupName n lc) (lookupName n uc) =
                    some (FS.nil, suc) := by
                  rw [hl, hu]
                  simp [subTrees, classify_dir_dir_true]
                have hslc : slc = FS.nil := by
                  rw [hsub] at hsubeq
                  exact congrArg Prod.fst (Option.some.inj hsubeq)
                subst hslc
                have hhead : childApplyOps (lookupName n lc)
                    (opsFor [n] (classify (lookupName n lc) (lookupName n uc))
                      (some (.dir um true suc))) = some (.dir um true suc) := by
                  rw [hl, hu, classify_dir_dir_true]
                  simp [opsFor, childApplyOps, childApply]
                have hchild := lookupName_final_dir f lc uc n rest hnrest FS.nil suc
                  um true hu hsubeq um true suc hhead
                rw [apply_plan_lower_nil f suc _ (unionNames_nil_isSome suc)] at hchild
                have hlpL : lookupPath
                    (applyOps lc (planOps uc (walkAux (f + 1) lc uc (n :: rest))))
                    (n :: q) = lookupPath suc q :=
                  lookupPath_cons_of_dir _ suc n um true q hqne hchild
                have hlpU : lookupPath uc (n :: q) = lookupPath suc q :=
                  lookupPath_cons_of_dir uc suc n um true q hqne hu
                refine ⟨fun hc => ?_, fun hc => ?_, fun hc => ?_⟩
                · exfalso
                  obtain ⟨t, _, hveq⟩ := walk_lower_nil_shape f suc _
                    (unionNames_nil_isSome suc) q v hqmem
                  rw [hveq] at hc
                  exact (classify_none_ne (some t)).1 hc
                · rw [hlpL, hlpU]
                  exact entryMatches_refl _
                · rw [hlpL, hlpU]
              | false =>
                by_cases he : entryEq (.dir lm lo lcs) (.dir um false suc) = true
                · have hsubeq : subTrees (lookupName n lc) (lookupName n uc) =
                      some (lcs, suc) := by
                    rw [hl, hu]
                    simp [subTrees, classify_dir_dir_false, he]
                  have hslc : slc = lcs := by
                    rw [hsub] at hsubeq
                    exact congrArg Prod.fst (Option.some.inj hsubeq)
                  subst hslc
                  have hhead : childApplyOps (lookupName n lc)
                      (opsFor [n] (classify (lookupName n lc) (lookupName n uc))
                        (some (.dir um false suc))) = some (.dir lm lo slc) := by
                    rw [hl, hu, classify_dir_dir_false, if_pos he]
                    simp [opsFor, childApplyOps]
                  have hchild := lookupName_final_dir f lc uc n rest hnrest slc suc
                    um false hu hsubeq lm lo slc hhead
                  have hIH := ih slc suc (unionNames slc suc) (unionNames_nodup _ _) q v hqmem
                  exact descend_transfer _ uc _ suc n q v lm um lo false hqne hchild hu
                    hIH.1 hIH.2.1 hIH.2.2
                · have hsubeq : subTrees (lookupName n lc) (lookupName n uc) =
                      some (lcs, suc) := by
                    rw [hl, hu]
                    simp [subTrees, classify_dir_dir_false, he]
                  have hslc : slc = lcs := by
                    rw [hsub] at hsubeq
                    exact congrArg Prod.fst (Option.some.inj hsubeq)
                  subst hslc
                  have hhead : childApplyOps (lookupName n lc)
                      (opsFor [n] (classify (lookupName n lc) (lookupName n uc))
                        (some (.dir um false suc))) = some (.dir um false slc) := by
                    rw [hl, hu, classify_dir_dir_false, if_neg he]
                    simp [opsFor, childApplyOps, childApply, placeEntry]
                  have hchild := lookupName_final_dir f lc uc n rest hnrest slc suc
                    um false hu hsubeq um false slc hhead
                  have hIH := ih slc suc (unionNames slc suc) (unionNames_nodup _ _) q v hqmem
                  exact descend_transfer _ uc _ suc n q v um um false false hqne hchild hu
                    hIH.1 hIH.2.1 hIH.2.2
            | file lm cc =>
              have hcv : classify (lookupName n lc) (lookupName n uc) =
                  Verdict.modified := by
                rw [hl, hu]
                exact classify_kind_mismatch _ _ (by simp [kindOf]) (by simp [kindOf])
              have hsubeq : subTrees (lookupName n lc) (lookupName n uc) = none := by
                rw [hl, hu] at hcv ⊢
                simp [subTrees, hcv]
              rw [hsubeq] at hsub
              cases hsub
            | symlink lm tg =>
              have hcv : classify (lookupName n lc) (lookupName n uc) =
                  Verdict.modified := by
                rw [hl, hu]
                exact classify_kind_mismatch _ _ (by simp [kindOf]) (by simp [kindOf])
              have hsubeq : subTrees (lookupName n lc) (lookupName n uc) = none := by
                rw [hl, hu] at hcv ⊢
                simp [subTrees, hcv]
              rw [hsubeq] at hsub
              cases hsub
            | special lm j k =>
              have hcv : classify (lookupName n lc) (lookupName n uc) =
                  Verdict.modified := by
                rw [hl, hu]
                exact classify_kind_mismatch _ _ (by simp [kindOf])
                  (kindOf_special_ne_directory lm j k)
              have hsubeq : subTrees (lookupName n lc) (lookupName n uc) = none := by
                rw [hl, hu] at hcv ⊢
                simp [subTrees, hcv]
              rw [hsubeq] at hsub
              cases hsub
      · -- the pair comes from the remaining names
        obtain ⟨n', q', hn', hp⟩ := walkAux_path_shape f lc uc rest p v hR
        have hne : n' ≠ n := fun hc => hnrest (hc ▸ hn')
        have hcongr :
            lookupPath (applyOps lc (planOps uc (walkAux (f + 1) lc uc (n :: rest)))) p =
              lookupPath (applyOps lc (planOps uc (walkAux f lc uc rest))) p := by
          rw [hp]
          exact lookupPath_congr_head _ _ n' q' (lookupName_final_other f lc uc n n' rest hne)
        rw [hcongr]
        exact ih lc uc rest hndrest p v hR

/-! ### Lemmas: one verdict per path -/

theorem walkAux_paths_nodup :
    ∀ (f : Nat) (lc uc : FS) (ns : List Nat), ns.Nodup →
      ((walkAux f lc uc ns).map Prod.fst).Nodup := by
  intro f
  induction f with
  | zero => intro lc uc ns _; simp [walkAux]
  | succ f ih =>
    intro lc uc ns hnd
    cases ns with
    | nil => simp [walkAux]
    | cons n rest =>
      simp only [List.nodup_cons] at hnd
      obtain ⟨hnr, hndr⟩ := hnd
      rw [walkAux_cons, List.map_append]
      refine List.Nodup.append ?_ (ih lc uc rest hndr) ?_
      · simp only [groupList, List.map_cons]
        refine List.nodup_cons.mpr ⟨?_, ?_⟩
        · intro hmem
          rw [List.map_map] at hmem
          obtain ⟨pv, hpv, hpp⟩ := List.mem_map.mp hmem
          cases hsub : subTrees (lookupName n lc) (lookupName n uc) with
          | none => rw [hsub] at hpv; simp at hpv
          | some pr =>
            obtain ⟨slc, suc⟩ := pr
            rw [hsub] at hpv
            obtain ⟨n2, q2, hn2, hq2⟩ := walkAux_path_shape f slc suc _ pv.1 pv.2 (by
              obtain ⟨pp, vv⟩ := pv
              exact hpv)
            simp only [Function.comp] at hpp
            rw [hq2] at hpp
            simp at hpp
        · rw [List.map_map]
          have hcomp : (Prod.fst ∘ fun pv : FPath × Verdict => (n :: pv.1, pv.2)) =
              (fun p : FPath => n :: p) ∘ Prod.fst := rfl
          rw [hcomp, ← List.map_map]
          cases hsub : subTrees (lookupName n lc) (lookupName n uc) with
          | none => simp
          | some pr =>
            obtain ⟨slc, suc⟩ := pr
            refine List.Nodup.map ?_ (ih slc suc _ (unionNames_nodup slc suc))
            intro a b hab
            injection hab
      · intro p hp1 hp2
        obtain ⟨pv, hpv, hpp⟩ := List.mem_map.mp hp1
        obtain ⟨pv2, hpv2, hpp2⟩ := List.mem_map.mp hp2
        obtain ⟨q1, hq1⟩ := groupList_fst_shape f lc uc n pv hpv
        obtain ⟨n2, q2, hn2, hq2⟩ := walkAux_path_shape f lc uc rest pv2.1 pv2.2 (by
          obtain ⟨pp, vv⟩ := pv2
          exact hpv2)
        rw [← hpp] at hpp2
        rw [hq1] at hpp2
        rw [hq2] at hpp2
        injection hpp2 with hh _
        exact hnr (hh ▸ hn2)

theorem pair_fst_unique {α β : Type} (W : List (α × β))
    (hnd : (W.map Prod.fst).Nodup) :
    ∀ (p : α) (v w : β), (p, v) ∈ W → (p, w) ∈ W → v = w := by
  induction W with
  | nil => intro p v w h; simp at h
  | cons x rest ih =>
    intro p v w h1 h2
    simp only [List.map_cons, List.nodup_cons] at hnd
    obtain ⟨hx, hrest⟩ := hnd
    rcases List.mem_cons.mp h1 with rfl | h1b
    · rcases List.mem_cons.mp h2 with heq | h2b
      · injection heq with hfst hsnd
        exact hsnd.symm
      · exfalso
        exact hx (List.mem_map.mpr ⟨(p, w), h2b, rfl⟩)
    · rcases List.mem_cons.mp h2 with heq | h2b
      · exfalso
        refine hx (List.mem_map.mpr ⟨(p, v), h1b, ?_⟩)
        rw [← heq]
      · exact ih hrest p v w h1b h2b

theorem walkDir_verdict_unique (lc uc : FS) (p : FPath) (v w : Verdict)
    (h1 : (p, v) ∈ walkDir lc uc) (h2 : (p, w) ∈ walkDir lc uc) : v = w := by
  have hnd := walkAux_paths_nodup (walkNeed lc uc (unionNames lc uc)) lc uc
    (unionNames lc uc) (unionNames_nodup lc uc)
  exact pair_fst_unique _ hnd p v w h1 h2

theorem mem_vacuumOps (uc : FS) :
    ∀ (w : List (FPath × Verdict)) (op : Op), op ∈ vacuumOps uc w →
      ∃ p m c, op = Op.deletePath p ∧ (p, Verdict.unchanged) ∈ w ∧
        lookupPath uc p = some (.file m c) := by
  intro w
  induction w with
  | nil => intro op h; simp [vacuumOps] at h
  | cons pv rest ih =>
    obtain ⟨pp, vv⟩ := pv
    intro op h
    simp only [vacuumOps] at h
    rcases List.mem_append.mp h with h1 | h2
    · cases hv : vv with
      | unchanged =>
        rw [hv] at h1
        cases hlp : lookupPath uc pp with
        | none => rw [hlp] at h1; simp at h1
        | some node =>
          rw [hlp] at h1
          cases node with
          | file m c =>
            simp only [List.mem_singleton] at h1
            refine ⟨pp, m, c, h1, ?_, hlp⟩
            rw [← hv]
            simp
          | dir m o cs => simp at h1
          | symlink m t => simp at h1
          | special m j k => simp at h1
      | added => rw [hv] at h1; simp at h1
      | deleted => rw [hv] at h1; simp at h1
      | modified => rw [hv] at h1; simp at h1
      | opaqReplaced => rw [hv] at h1; simp at h1
    · obtain ⟨p, m, c, hop, hmem, hlp⟩ := ih op h2
      exact ⟨p, m, c, hop, by simp [hmem], hlp⟩

/-! ### Claim theorems: classifier, walker and planners -/

/-- C2: a whiteout upper entry (character device 0/0) over any existing
lower entry is classified Deleted, regardless of any other metadata of the
upper entry, so a whiteout is never treated as a special-file
modification. -/
theorem whiteout_classified_deleted (lt ut : FNode)
    (h : kindOf ut = EKind.whiteout) :
    classify (some lt) (some ut) = Verdict.deleted := by
  simp [classify, h]

theorem whiteout_classified_deleted_witness :
    classify (some (FNode.file m644 [1])) (some (FNode.special m755 0 0)) =
      Verdict.deleted :=
  whiteout_classified_deleted (FNode.file m644 [1]) (FNode.special m755 0 0) (by decide)

/-- C1: executing the merge planner's operation list on the lower tree and
then clearing upperdir yields a lower tree equivalent to the pre-merge
merged view: every path whose verdict was Added or Modified matches the
prior upper entry afterwards, every OpaqueReplaced path carries exactly the
prior upper subtree, and every Deleted path is absent from the resulting
lower tree. -/
theorem merge_then_clear_matches_upper (lc uc : FS) (vb : Bool) (p : FPath)
    (v : Verdict) (hmem : (p, v) ∈ walkDir lc uc) :
    (v = Verdict.deleted →
      lookupPath (applyOps lc (mergePlan lc uc vb)) p = none) ∧
    ((v = Verdict.added ∨ v = Verdict.modified) →
      entryMatches (lookupPath (applyOps lc (mergePlan lc uc vb)) p)
        (lookupPath uc p)) ∧
    (v = Verdict.opaqReplaced →
      lookupPath (applyOps lc (mergePlan lc uc vb)) p = lookupPath uc p) := by
  have hplan : applyOps lc (mergePlan lc uc vb) =
      applyOps lc (planOps uc (walkDir lc uc)) := by
    unfold mergePlan
    rw [applyOps_append]
    rfl
  rw [hplan]
  unfold walkDir at hmem ⊢
  exact merge_master _ lc uc _ (unionNames_nodup lc uc) p v hmem

theorem merge_then_clear_matches_upper_witness :
    lookupPath (applyOps lcW (mergePlan lcW ucW false)) [4] = none :=
  (merge_then_clear_matches_upper lcW ucW false [4] Verdict.deleted (by decide)).1 rfl

/-- C3: under an upper directory marked opaque (with an existing lower
directory), the walker prunes the lower side: every emitted strict
descendant of that directory is an upper-side path classified against an
absent lower side, so no lower-side-only descendant ever appears, and
every upper-side descendant does appear. -/
theorem opaque_dir_prunes_lower (lc uc : FS) (n : Nat) (um lm : FMeta)
    (lo : Bool) (suc slcl : FS)
    (hu : lookupName n uc = some (.dir um true suc))
    (hl : lookupName n lc = some (.dir lm lo slcl)) :
    (∀ q w, (n :: q, w) ∈ walkDir lc uc → q ≠ [] →
      ∃ t, lookupPath suc q = some t ∧ w = classify none (some t)) ∧
    (∀ q t, lookupPath suc q = some t → q ≠ [] →
      (n :: q, classify none (some t)) ∈ walkDir lc uc) := by
  constructor
  · intro q w hmem hq
    unfold walkDir at hmem
    obtain ⟨n', g, hn', hg, hgr⟩ := walkAux_mem_elim _ lc uc _ _ hmem
    rcases groupList_mem_elim g lc uc n' (n :: q) w hgr with ⟨hp, hv⟩ |
      ⟨q', slc2, suc2, hp, hsub, hqmem⟩
    · injection hp with h1 h2
      exact absurd h2 hq
    · injection hp with h1 h2
      subst h1
      subst h2
      rw [hl, hu] at hsub
      have hsub2 : subTrees (some (FNode.dir lm lo slcl))
          (some (FNode.dir um true suc)) = some (FS.nil, suc) := by
        simp [subTrees, classify_dir_dir_true]
      rw [hsub2] at hsub
      injection hsub with hpair
      have hfst := congrArg Prod.fst hpair
      have hsnd := congrArg Prod.snd hpair
      simp only at hfst hsnd
      subst hfst
      subst hsnd
      exact walk_lower_nil_shape g suc _ (unionNames_nil_isSome suc) q w hqmem
  · intro q t hlp hq
    unfold walkDir
    have hnNS : n ∈ unionNames lc uc := by
      rw [mem_unionNames]
      exact Or.inr (mem_namesF_of_lookupName n uc (by simp [hu]))
    refine walkAux_intro _ _ lc uc n _ hnNS ?_ ?_
    · unfold walkNeed
      omega
    · have hsubeq : subTrees (lookupName n lc) (lookupName n uc) =
          some (FS.nil, suc) := by
        rw [hl, hu]
        simp [subTrees, classify_dir_dir_true]
      simp only [groupList, hsubeq]
      refine List.mem_cons.mpr (Or.inr ?_)
      refine List.mem_map.mpr ⟨(q, classify none (some t)), ?_, rfl⟩
      refine walk_lower_nil_complete q suc t _ hlp ?_
      have hsz : sizeF suc < sizeF uc := sizeF_child_lt n um true suc uc hu
      have hun : (unionNames FS.nil suc).length ≤ sizeF suc := by
        have hh := length_unionNames_le FS.nil suc
        simpa [sizeF] using hh
      unfold walkNeed
      simp only [sizeF, Nat.zero_add, List.length_cons]
      have harith : (unionNames FS.nil suc).length + sizeF suc * sizeF suc + 1 ≤
          (sizeF lc + sizeF uc) * (sizeF lc + sizeF uc) + 1 := by
        nlinarith
      omega

theorem opaque_dir_prunes_lower_witness :
    (∃ t, lookupPath (FS.cons 5 (FNode.file m644 [13]) FS.nil) [5] = some t ∧
      Verdict.added = classify none (some t)) ∧
    ([2, 5], classify none (some (FNode.file m644 [13]))) ∈ walkDir lcW ucW := by
  have hall := opaque_dir_prunes_lower lcW ucW 2 m755 m755 false
    (FS.cons 5 (FNode.file m644 [13]) FS.nil)
    (FS.cons 3 (FNode.file m644 [11]) FS.nil) (by decide) (by decide)
  constructor
  · exact hall.1 [5] Verdict.added (by decide) (by decide)
  · exact hall.2 [5] (FNode.file m644 [13]) (by decide) (by decide)

/-- C4: the vacuum planner emits only delete operations, each for a path
whose upper side is a regular file physically present in upperdir and whose
verdict is exactly Unchanged; since a path has exactly one verdict, no
operation is emitted for a path whose verdict is Modified, Added, Deleted
or OpaqueReplaced, and no directory is ever deleted. -/
theorem vacuum_only_unchanged_upper_files (lc uc : FS) (vb : Bool) (op : Op)
    (h : op ∈ vacuumPlan lc uc vb) :
    ∃ p m c, op = Op.deletePath p ∧ lookupPath uc p = some (.file m c) ∧
      (p, Verdict.unchanged) ∈ walkDir lc uc ∧
      ∀ v, (p, v) ∈ walkDir lc uc → v = Verdict.unchanged := by
  obtain ⟨p, m, c, hop, hmem, hlp⟩ := mem_vacuumOps uc _ op h
  exact ⟨p, m, c, hop, hlp, hmem,
    fun v hv => walkDir_verdict_unique lc uc p v _ hv hmem⟩

theorem vacuum_only_unchanged_upper_files_witness :
    ∃ p m c, Op.deletePath [1] = Op.deletePath p ∧
      lookupPath ucW p = some (.file m c) ∧
      (p, Verdict.unchanged) ∈ walkDir lcW ucW ∧
      ∀ v, (p, v) ∈ walkDir lcW ucW → v = Verdict.unchanged :=
  vacuum_only_unchanged_upper_files lcW ucW false (Op.deletePath [1]) (by decide)

/-- C6: the verbose flag does not influence the vacuum planner or the merge
planner: for every tree pair their operation lists are identical whether
the flag is set or not. -/
theorem verbose_noninterference (lc uc : FS) (v1 v2 : Bool) :
    vacuumPlan lc uc v1 = vacuumPlan lc uc v2 ∧
      mergePlan lc uc v1 = mergePlan lc uc v2 :=
  ⟨rfl, rfl⟩

/-! ### Lemmas: the /proc/mounts scan of main.c -/

theorem fgetsTake_fst_length_le :
    ∀ (k : Nat) (c : List Char), (fgetsTake k c).1.length ≤ k := by
  intro k
  induction k with
  | zero => intro c; simp [fgetsTake]
  | succ k ih =>
    intro c
    cases c with
    | nil => simp [fgetsTake]
    | cons ch rest =>
      by_cases h : ch = '\n'
      · simp [fgetsTake, h]
      · simp only [fgetsTake, if_neg h, List.length_cons]
        have hh := ih rest
        omega

theorem mem_fgetsSplit_length :
    ∀ (fuel : Nat) (c : List Char) (line : List Char),
      line ∈ fgetsSplit fuel c → line.length ≤ STRING_BUFFER_SIZE - 1 := by
  intro fuel
  induction fuel with
  | zero => intro c line h; simp [fgetsSplit] at h
  | succ fuel ih =>
    intro c line h
    cases c with
    | nil => simp [fgetsSplit] at h
    | cons ch rest =>
      simp only [fgetsSplit] at h
      rcases List.mem_cons.mp h with rfl | h2
      · exact fgetsTake_fst_length_le _ _
      · exact ih _ line h2

theorem scanMounts_guard_dead :
    ∀ (lower upper : List Char) (lines : List (List Char)),
      (∀ line ∈ lines, line.length ≠ STRING_BUFFER_SIZE) →
      scanMounts lower upper lines = scanMountsNoGuard lower upper lines := by
  intro lower upper lines
  induction lines with
  | nil => intro _; rfl
  | cons line rest ih =>
    intro h
    have h1 := h line (by simp)
    have hrest := ih (fun l hl => h l (by simp [hl]))
    by_cases hov : listPref "overlay".toList line = true
    · have hov2 : listPref ['o', 'v', 'e', 'r', 'l', 'a', 'y'] line = true := hov
      simp only [scanMounts, scanMountsNoGuard]
      simp [hov2, h1, hrest]
    · have hov2 : listPref ['o', 'v', 'e', 'r', 'l', 'a', 'y'] line = false := by
        cases hb : listPref "overlay".toList line
        · exact hb
        · exact absurd hb hov
      simp only [scanMounts, scanMountsNoGuard]
      simp [hov2, hrest]

/-- The buffer-length guard of `is_mounted` is dead code: `fgets` buffers
hold at most `STRING_BUFFER_SIZE - 1` characters, so the scan behaves
exactly like the scan with the guard removed, on every input. -/
theorem is_mounted_guard_dead (lower upper content : List Char) :
    is_mounted lower upper (some content) =
      scanMountsNoGuard lower upper (readLines content) := by
  show scanMounts lower upper (readLines content) = _
  apply scanMounts_guard_dead
  intro line hl
  have hh := mem_fgetsSplit_length _ _ line hl
  unfold STRING_BUFFER_SIZE at hh ⊢
  omega

theorem listPref_append_left :
    ∀ (pat xs ys : List Char), listPref pat xs = true →
      listPref pat (xs ++ ys) = true := by
  intro pat
  induction pat with
  | nil => intro xs ys _; rfl
  | cons p ps ih =>
    intro xs ys h
    cases xs with
    | nil => simp [listPref] at h
    | cons x xr =>
      simp only [listPref] at h ⊢
      by_cases hpx : p = x
      · rw [if_pos hpx] at h ⊢
        exact ih xr ys h
      · rw [if_neg hpx] at h
        simp at h

theorem listPref_true_length :
    ∀ (pat s : List Char), listPref pat s = true → pat.length ≤ s.length := by
  intro pat
  induction pat with
  | nil => intro s _; simp
  | cons p ps ih =>
    intro s h
    cases s with
    | nil => simp [listPref] at h
    | cons x xr =>
      simp only [listPref] at h
      by_cases hpx : p = x
      · rw [if_pos hpx] at h
        have hh := ih xr h
        simp only [List.length_cons]
        omega
      · rw [if_neg hpx] at h
        simp at h

theorem listPref_append_false :
    ∀ (pat s ys : List Char), listPref pat s = false → pat.length ≤ s.length →
      listPref pat (s ++ ys) = false := by
  intro pat
  induction pat with
  | nil => intro s ys h _; simp [listPref] at h
  | cons p ps ih =>
    intro s ys h hlen
    cases s with
    | nil => simp at hlen
    | cons x xr =>
      simp only [listPref] at h ⊢
      by_cases hpx : p = x
      · rw [if_pos hpx] at h ⊢
        exact ih xr ys h (by simp at hlen; omega)
      · rw [if_neg hpx]
  
theorem strstrSuffix_some_spec :
    ∀ (pat xs r : List Char), strstrSuffix pat xs = some r →
      listPref pat r = true ∧ r.length ≤ xs.length := by
  intro pat xs
  induction xs with
  | nil =>
    intro r h
    simp only [strstrSuffix] at h
    by_cases hp : pat = ([] : List Char)
    · rw [if_pos hp] at h
      injection h with h2
      subst h2
      subst hp
      exact ⟨rfl, by simp⟩
    · rw [if_neg hp] at h
      cases h
  | cons x xr ih =>
    intro r h
    simp only [strstrSuffix] at h
    by_cases hpx : listPref pat (x :: xr) = true
    · rw [if_pos hpx] at h
      injection h with h2
      subst h2
      exact ⟨hpx, by simp⟩
    · rw [if_neg hpx] at h
      obtain ⟨h1, h2⟩ := ih r h
      exact ⟨h1, by simp only [List.length_cons]; omega⟩

theorem strstrSuffix_append_left :
    ∀ (pat xs ys r : List Char), strstrSuffix pat xs = some r →
      strstrSuffix pat (xs ++ ys) = some (r ++ ys) := by
  intro pat xs
  induction xs with
  | nil =>
    intro ys r h
    simp only [strstrSuffix] at h
    by_cases hp : pat = ([] : List Char)
    · rw [if_pos hp] at h
      injection h with h2
      subst h2
      subst hp
      cases ys with
      | nil => rfl
      | cons y yr => simp [strstrSuffix, listPref]
    · rw [if_neg hp] at h
      cases h
  | cons x xr ih =>
    intro ys r h
    simp only [strstrSuffix] at h
    by_cases hpx : listPref pat (x :: xr) = true
    · rw [if_pos hpx] at h
      injection h with h2
      subst h2
      simp only [List.cons_append, strstrSuffix]
      rw [if_pos (by
        have hh := listPref_append_left pat (x :: xr) ys hpx
        simpa using hh)]
      simp [List.append_eq]
    · rw [if_neg hpx] at h
      have hspec := strstrSuffix_some_spec pat xr r h
      have hplen : pat.length ≤ (x :: xr).length := by
        have h1 := listPref_true_length pat r hspec.1
        have h2 := hspec.2
        simp only [List.length_cons]
        omega
      have hfalse : listPref pat ((x :: xr) ++ ys) = false :=
        listPref_append_false pat (x :: xr) ys (by
          cases hb : listPref pat (x :: xr)
          · rfl
          · exact absurd hb hpx) hplen
      simp only [List.cons_append, strstrSuffix]
      rw [if_neg (by simp only [List.cons_append] at hfalse; simp [hfalse])]
      have hih := ih ys r h
      simpa using hih

theorem fgetsTake_exact :
    ∀ (xs : List Char) (k : Nat) (ys : List Char), xs.length = k →
      (∀ c ∈ xs, ¬ c = '\n') → fgetsTake k (xs ++ ys) = (xs, ys) := by
  intro xs
  induction xs with
  | nil =>
    intro k ys hk _
    subst hk
    simp [fgetsTake]
  | cons x xr ih =>
    intro k ys hk hnl
    subst hk
    simp only [List.length_cons, List.cons_append, fgetsTake]
    rw [if_neg (hnl x (by simp))]
    simp only [List.append_eq]
    rw [ih xr.length ys rfl (fun c hc => hnl c (by simp [hc]))]

theorem fgetsTake_newline :
    ∀ (xs : List Char) (k : Nat) (ys : List Char), xs.length < k →
      (∀ c ∈ xs, ¬ c = '\n') → fgetsTake k (xs ++ '\n' :: ys) = (xs ++ ['\n'], ys) := by
  intro xs
  induction xs with
  | nil =>
    intro k ys hk _
    cases k with
    | zero => omega
    | succ k => simp [fgetsTake]
  | cons x xr ih =>
    intro k ys hk hnl
    cases k with
    | zero => omega
    | succ k =>
      simp only [List.cons_append, fgetsTake]
      rw [if_neg (hnl x (by simp))]
      simp only [List.append_eq]
      rw [ih k ys (by simp at hk; omega) (fun c hc => hnl c (by simp [hc]))]

theorem fgetsSplit_step (fuel : Nat) (c : List Char) (hc : c ≠ []) :
    fgetsSplit (fuel + 1) c =
      (fgetsTake (STRING_BUFFER_SIZE - 1) c).1 ::
        fgetsSplit fuel (fgetsTake (STRING_BUFFER_SIZE - 1) c).2 := by
  cases c with
  | nil => exact absurd rfl hc
  | cons a b => rfl

theorem fgetsSplit_nil : ∀ fuel : Nat, fgetsSplit fuel [] = [] := by
  intro fuel
  cases fuel <;> rfl

theorem c9head_no_newline : ∀ c ∈ c9head, ¬ c = '\n' := by decide

theorem c9_readLines : readLines c9content = [c9chunk1, c9chunk2] := by
  have hsplit : c9content =
      (c9head ++ List.replicate 8159 'a') ++ (List.replicate 400 'a' ++ ['\n']) := by
    unfold c9content
    rw [show (8559 : Nat) = 8159 + 400 from rfl, List.replicate_add]
    simp only [List.append_assoc]
  have hchunk1nl : ∀ c ∈ c9head ++ List.replicate 8159 'a', ¬ c = '\n' := by
    intro c hc
    rcases List.mem_append.mp hc with hc | hc
    · exact c9head_no_newline c hc
    · rw [List.eq_of_mem_replicate hc]
      decide
  have hlen1 : (c9head ++ List.replicate 8159 'a').length = 8191 := by
    have hh : c9head.length = 32 := by decide
    simp only [List.length_append, List.length_replicate, hh]
  have h1 : fgetsTake 8191 c9content =
      (c9chunk1, List.replicate 400 'a' ++ ['\n']) := by
    rw [hsplit]
    exact fgetsTake_exact _ 8191 _ hlen1 hchunk1nl
  have h2 : fgetsTake 8191 (List.replicate 400 'a' ++ ['\n']) = (c9chunk2, []) := by
    have hh := fgetsTake_newline (List.replicate 400 'a') 8191 []
      (by simp only [List.length_replicate]; omega) (by
        intro c hc
        rw [List.eq_of_mem_replicate hc]
        decide)
    exact hh
  have hclen : c9content.length = 8592 := by
    have hh : c9head.length = 32 := by decide
    simp only [c9content, List.length_append, List.length_replicate,
      List.length_cons, List.length_nil, hh]
  have hsz : STRING_BUFFER_SIZE - 1 = 8191 := rfl
  unfold readLines
  rw [hclen]
  rw [fgetsSplit_step 8592 c9content (by
    intro hcon
    have := congrArg List.length hcon
    rw [hclen] at this
    simp at this)]
  rw [hsz, h1]
  rw [show (8592 : Nat) = 8591 + 1 from rfl]
  rw [fgetsSplit_step 8591 _ (by
    intro hcon
    have hlc := congrArg List.length hcon
    simp only [List.length_append, List.length_replicate, List.length_cons,
      List.length_nil] at hlc
    omega)]
  rw [hsz, h2]
  rw [fgetsSplit_nil]

theorem scanMounts_step_skip (lower upper line : List Char) (rest : List (List Char))
    (hov : listPref "overlay".toList line = true)
    (hlen : ¬ line.length = STRING_BUFFER_SIZE)
    (ml mu : List Char)
    (hml : strstrSuffix "lowerdir=".toList line = some ml)
    (hmu : strstrSuffix "upperdir=".toList line = some mu)
    (hl : listPref lower (List.drop 9 ml) = false)
    (hu : listPref upper (List.drop 9 mu) = false) :
    scanMounts lower upper (line :: rest) = scanMounts lower upper rest := by
  simp only [scanMounts]
  rw [if_neg (by rw [hov]; exact fun hh => hh rfl)]
  rw [if_neg hlen]
  rw [hml, hmu]
  show (if ¬ (¬ listPref lower (List.drop 9 ml) = true ∧
      ¬ listPref upper (List.drop 9 mu) = true) then true
    else scanMounts lower upper rest) = scanMounts lower upper rest
  rw [hl, hu]
  rw [if_neg (by simp)]

theorem scanMounts_step_notoverlay (lower upper line : List Char)
    (rest : List (List Char))
    (hov : listPref "overlay".toList line = false) :
    scanMounts lower upper (line :: rest) = scanMounts lower upper rest := by
  simp only [scanMounts]
  rw [if_pos (by rw [hov]; simp)]

theorem c9chunk1_length : c9chunk1.length = 8191 := by
  show (c9head ++ List.replicate 8159 'a').length = 8191
  have hh : c9head.length = 32 := by decide
  simp only [List.length_append, List.length_replicate, hh]

theorem c9_scan_false :
    scanMounts "/a".toList "/b".toList [c9chunk1, c9chunk2] = false := by
  have hov1 : listPref "overlay".toList c9chunk1 = true := by
    show listPref "overlay".toList (c9head ++ List.replicate 8159 'a') = true
    exact listPref_append_left _ c9head _ (by decide)
  have hml : strstrSuffix "lowerdir=".toList c9chunk1 =
      some ("lowerdir=/x upperdir=/y ".toList ++ List.replicate 8159 'a') := by
    show strstrSuffix "lowerdir=".toList (c9head ++ List.replicate 8159 'a') = _
    exact strstrSuffix_append_left _ c9head _ _ (by decide)
  have hmu : strstrSuffix "upperdir=".toList c9chunk1 =
      some ("upperdir=/y ".toList ++ List.replicate 8159 'a') := by
    show strstrSuffix "upperdir=".toList (c9head ++ List.replicate 8159 'a') = _
    exact strstrSuffix_append_left _ c9head _ _ (by decide)
  have hpl : listPref "/a".toList
      (List.drop 9 ("lowerdir=/x upperdir=/y ".toList ++ List.replicate 8159 'a')) =
      false := by
    rw [show "lowerdir=/x upperdir=/y ".toList =
        "lowerdir=".toList ++ "/x upperdir=/y ".toList from by decide]
    rw [List.append_assoc]
    rw [show (9 : Nat) = ("lowerdir=".toList).length from by decide]
    rw [List.drop_left]
    exact listPref_append_false _ _ _ (by decide) (by decide)
  have hpu : listPref "/b".toList
      (List.drop 9 ("upperdir=/y ".toList ++ List.replicate 8159 'a')) = false := by
    rw [show "upperdir=/y ".toList =
        "upperdir=".toList ++ "/y ".toList from by decide]
    rw [List.append_assoc]
    rw [show (9 : Nat) = ("upperdir=".toList).length from by decide]
    rw [List.drop_left]
    exact listPref_append_false _ _ _ (by decide) (by decide)
  have hov2 : listPref "overlay".toList c9chunk2 = false := by
    show listPref "overlay".toList (List.replicate 400 'a' ++ ['\n']) = false
    rw [show (400 : Nat) = 399 + 1 from rfl, List.replicate_succ]
    simp only [List.cons_append, listPref]
    rw [if_neg (by decide)]
  rw [scanMounts_step_skip _ _ _ _ hov1
    (by rw [c9chunk1_length]; decide) _ _ hml hmu hpl hpu]
  rw [scanMounts_step_notoverlay _ _ _ _ hov2]
  rfl

/-- C9: refuted for the buffer-full case. The guard
`strlen(buf) == STRING_BUFFER_SIZE` in `is_mounted` is dead code, because
`fgets(buf, STRING_BUFFER_SIZE, f)` stores at most
`STRING_BUFFER_SIZE - 1` characters: the scan equals the guard-free scan
on every input. Concretely, on a /proc/mounts whose single overlay line
overflows the buffer (with well-formed non-matching lowerdir=/upperdir=
fields in the buffered part), the line is parsed truncated and
`is_mounted` returns false instead of the claimed true. -/
theorem is_mounted_long_line_not_failsafe :
    (∀ lower upper content, is_mounted lower upper (some content) =
      scanMountsNoGuard lower upper (readLines content)) ∧
    readLines c9content = [c9chunk1, c9chunk2] ∧
    c9chunk1.length = STRING_BUFFER_SIZE - 1 ∧
    listPref "overlay".toList c9chunk1 = true ∧
    is_mounted "/a".toList "/b".toList (some c9content) = false := by
  refine ⟨fun l u c => is_mounted_guard_dead l u c, c9_readLines, ?_, ?_, ?_⟩
  · rw [c9chunk1_length]
    rfl
  · show listPref "overlay".toList (c9head ++ List.replicate 8159 'a') = true
    exact listPref_append_left _ c9head _ (by decide)
  · show scanMounts "/a".toList "/b".toList (readLines c9content) = false
    rw [c9_readLines]
    exact c9_scan_false

theorem mem_xattrTrace (e : Env) (ev : Ev) (hm : ev ∈ xattrTrace e) :
    ev = Ev.mkstempsEv .upperT ∨ ev = Ev.fsetxattrEv .upperT ∨
      ev = Ev.getxattrEv .upperT ∨ ev = Ev.unlinkEv .upperT := by
  unfold xattrTrace at hm
  split_ifs at hm <;> simp at hm <;> tauto

theorem mem_dispatch (e : Env) (t : List Ev) (ev : Ev)
    (hm : ev ∈ (dispatch e t).2) :
    ev ∈ t ∨ ev = Ev.createScriptEv .otherT ∨ ∃ a, ev = Ev.runActionEv a := by
  unfold dispatch at hm
  rcases ha : e.actionArg with _ | oa
  · rw [ha] at hm
    exact Or.inl hm
  · rcases oa with _ | a
    · rw [ha] at hm
      exact Or.inl hm
    · cases a <;> rw [ha] at hm
      · simp at hm
        rcases hm with hm | rfl
        · exact Or.inl hm
        · exact Or.inr (Or.inr ⟨_, rfl⟩)
      · split_ifs at hm <;> simp at hm
        · rcases hm with hm | rfl | rfl
          · exact Or.inl hm
          · exact Or.inr (Or.inl rfl)
          · exact Or.inr (Or.inr ⟨_, rfl⟩)
        · rcases hm with hm | rfl
          · exact Or.inl hm
          · exact Or.inr (Or.inl rfl)
        · rcases hm with hm | rfl | rfl
          · exact Or.inl hm
          · exact Or.inr (Or.inl rfl)
          · exact Or.inr (Or.inr ⟨_, rfl⟩)
        · rcases hm with hm | rfl
          · exact Or.inl hm
          · exact Or.inr (Or.inl rfl)
      · split_ifs at hm <;> simp at hm
        · rcases hm with hm | rfl | rfl
          · exact Or.inl hm
          · exact Or.inr (Or.inl rfl)
          · exact Or.inr (Or.inr ⟨_, rfl⟩)
        · rcases hm with hm | rfl
          · exact Or.inl hm
          · exact Or.inr (Or.inl rfl)
        · rcases hm with hm | rfl | rfl
          · exact Or.inl hm
          · exact Or.inr (Or.inl rfl)
          · exact Or.inr (Or.inr ⟨_, rfl⟩)
        · rcases hm with hm | rfl
          · exact Or.inl hm
          · exact Or.inr (Or.inl rfl)

theorem mem_mainRun (e : Env) (ev : Ev) (hm : ev ∈ (mainRun e).2) :
    ev = Ev.lstatEv .lowerT ∨ ev = Ev.lstatEv .upperT ∨ ev ∈ xattrTrace e ∨
      ev = Ev.openMountsEv ∨ ev = Ev.promptEv ∨
      ev = Ev.createScriptEv .otherT ∨ ∃ a, ev = Ev.runActionEv a := by
  simp only [mainRun] at hm
  split_ifs at hm
  · simp at hm
  · simp at hm
  · simp at hm
  · simp at hm
    tauto
  · simp at hm
    tauto
  · simp at hm
    tauto
  · simp at hm
    tauto
  · rcases mem_dispatch _ _ _ hm with hh | hh | ⟨a, hh⟩
    · simp at hh
      tauto
    · tauto
    · exact Or.inr (Or.inr (Or.inr (Or.inr (Or.inr (Or.inr ⟨a, hh⟩)))))
  · simp at hm
    tauto
  · rcases mem_dispatch _ _ _ hm with hh | hh | ⟨a, hh⟩
    · simp at hh
      tauto
    · tauto
    · exact Or.inr (Or.inr (Or.inr (Or.inr (Or.inr (Or.inr ⟨a, hh⟩)))))

/-- C5: refuted as stated. A run of the tool (here: a plain `diff` run)
performs a mutating filesystem call inside the upper tree: the
`trusted.*` xattr probe creates a temporary file in upperdir via
`mkstemps`, so the process does mutate the upper tree. -/
theorem main_mutates_upper_counterexample :
    Ev.mkstempsEv .upperT ∈ (mainRun envDiff).2 ∧
    mutatingEv (Ev.mkstempsEv .upperT) = true ∧
    targetEv (Ev.mkstempsEv .upperT) = .upperT := by
  decide

/-- C5 (amended): in every run, no mutating filesystem call ever targets
the lower tree, and the only mutating calls targeting the upper tree are
those of the xattr probe of `check_xattr_trusted`: the temp-file
creation, the `fsetxattr` on it, and its `unlink`. All other mutation is
deferred to the generated script. -/
theorem main_mutation_scope (e : Env) (ev : Ev)
    (hm : ev ∈ (mainRun e).2) (hmut : mutatingEv ev = true) :
    targetEv ev ≠ .lowerT ∧
    (targetEv ev = .upperT →
      ev = Ev.mkstempsEv .upperT ∨ ev = Ev.fsetxattrEv .upperT ∨
        ev = Ev.unlinkEv .upperT) := by
  rcases mem_mainRun e ev hm with rfl | rfl | hx | rfl | rfl | rfl | ⟨a, rfl⟩
  · simp [mutatingEv] at hmut
  · simp [mutatingEv] at hmut
  · rcases mem_xattrTrace e ev hx with rfl | rfl | rfl | rfl
    · exact ⟨by decide, fun _ => Or.inl rfl⟩
    · exact ⟨by decide, fun _ => Or.inr (Or.inl rfl)⟩
    · simp [mutatingEv] at hmut
    · exact ⟨by decide, fun _ => Or.inr (Or.inr rfl)⟩
  · simp [mutatingEv] at hmut
  · simp [mutatingEv] at hmut
  · exact ⟨by decide, by decide⟩
  · simp [mutatingEv] at hmut

theorem main_mutation_scope_witness :
    Ev.mkstempsEv .upperT ∈ (mainRun envDiff).2 ∧
    mutatingEv (Ev.mkstempsEv .upperT) = true ∧
    (targetEv (Ev.mkstempsEv .upperT) ≠ .lowerT ∧
      (targetEv (Ev.mkstempsEv .upperT) = .upperT →
        Ev.mkstempsEv .upperT = Ev.mkstempsEv .upperT ∨
          Ev.mkstempsEv .upperT = Ev.fsetxattrEv .upperT ∨
          Ev.mkstempsEv .upperT = Ev.unlinkEv .upperT)) :=
  ⟨by decide, by decide,
    main_mutation_scope envDiff (Ev.mkstempsEv .upperT) (by decide) (by decide)⟩

theorem runAction_not_xattr (e : Env) (b : CAction) :
    Ev.runActionEv b ∉ xattrTrace e := by
  intro h
  rcases mem_xattrTrace e _ h with h | h | h | h <;> simp at h

theorem createScript_not_xattr (e : Env) (t : FsTarget) :
    Ev.createScriptEv t ∉ xattrTrace e := by
  intro h
  rcases mem_xattrTrace e _ h with h | h | h | h <;> simp at h

set_option maxHeartbeats 1600000 in
/-- C7: the lower and upper arguments are validated before any action
runs: a run that invokes an action has passed all four checks, and if
help was not requested and any check fails, the run exits with failure
and invokes no action. -/
theorem validation_before_action (e : Env) (he : e.helpRequested = false) :
    ((∃ a, Ev.runActionEv a ∈ (mainRun e).2) →
      e.lowerOk = true ∧ e.lowerIsDir = true ∧
        e.upperOk = true ∧ e.upperIsDir = true) ∧
    ((e.lowerOk = false ∨ e.lowerIsDir = false ∨
        e.upperOk = false ∨ e.upperIsDir = false) →
      (mainRun e).1 = 1 ∧ ∀ a, Ev.runActionEv a ∉ (mainRun e).2) := by
  constructor
  · rintro ⟨a, ha⟩
    simp only [mainRun] at ha
    split_ifs at ha with g1 g2 g3 g4 g5 g6 g7 g8 g9
    · simp at ha
    · simp at ha
    · simp at ha
    · simp at ha
    · simp at ha
    · simp at ha
    · simp at ha
      exact absurd ha (runAction_not_xattr e a)
    · simp at g3 g4 g5 g6
      exact ⟨g3, g4, g5, g6⟩
    · simp at ha
      exact absurd ha (runAction_not_xattr e a)
    · simp at g3 g4 g5 g6
      exact ⟨g3, g4, g5, g6⟩
  · intro hbad
    have hch : mainRun e = (1, ([] : List Ev)) ∨
        mainRun e = (1, [Ev.lstatEv FsTarget.lowerT]) ∨
        mainRun e = (1, [Ev.lstatEv FsTarget.lowerT, Ev.lstatEv FsTarget.upperT]) := by
      simp only [mainRun]
      split_ifs with g1 g2 g3 g4 g5 g6 g7 g8 g9
      · rw [he] at g1
        cases g1
      · tauto
      · tauto
      · tauto
      · tauto
      · tauto
      · exfalso
        simp at g3 g4 g5 g6
        rcases hbad with hb | hb | hb | hb <;> simp_all
      · exfalso
        simp at g3 g4 g5 g6
        rcases hbad with hb | hb | hb | hb <;> simp_all
      · exfalso
        simp at g3 g4 g5 g6
        rcases hbad with hb | hb | hb | hb <;> simp_all
      · exfalso
        simp at g3 g4 g5 g6
        rcases hbad with hb | hb | hb | hb <;> simp_all
    rcases hch with h | h | h <;> rw [h] <;> exact ⟨rfl, by simp⟩

theorem validation_before_action_witness :
    envBadLower.helpRequested = false ∧
    ((mainRun envBadLower).1 = 1 ∧
      ∀ a, Ev.runActionEv a ∉ (mainRun envBadLower).2) :=
  ⟨rfl, (validation_before_action envBadLower rfl).2 (Or.inr (Or.inl rfl))⟩

set_option maxHeartbeats 1600000 in
/-- C8: when a run invokes one of the three actions, the process exit
status reflects exactly the action's success/failure indicator: exit 0
when the action reports success, exit 1 (failure) when it reports an
error. -/
theorem exit_reflects_action (e : Env) (a : CAction)
    (hm : Ev.runActionEv a ∈ (mainRun e).2) :
    ((mainRun e).1 = 0 ↔ e.actionFails = false) := by
  simp only [mainRun] at hm ⊢
  split_ifs at hm ⊢ with g1 g2 g3 g4 g5 g6 g7 g8 g9
  · simp at hm
  · simp at hm
  · simp at hm
  · simp at hm
  · simp at hm
  · simp at hm
  · simp at hm
    exact absurd hm (runAction_not_xattr e a)
  · simp only [dispatch] at hm ⊢
    rcases ha : e.actionArg with _ | oa
    · rw [ha] at hm
      simp at hm
      exact absurd hm (runAction_not_xattr e a)
    · rcases oa with _ | act
      · rw [ha] at hm
        simp at hm
        exact absurd hm (runAction_not_xattr e a)
      · cases act
        · cases haf : e.actionFails <;> simp [ha, haf] at hm ⊢
        · cases hs : e.scriptOk <;> cases haf : e.actionFails <;>
            simp [ha, hs, haf] at hm ⊢ <;>
            exact absurd hm (runAction_not_xattr e a)
        · cases hs : e.scriptOk <;> cases haf : e.actionFails <;>
            simp [ha, hs, haf] at hm ⊢ <;>
            exact absurd hm (runAction_not_xattr e a)
  · simp at hm
    exact absurd hm (runAction_not_xattr e a)
  · simp only [dispatch] at hm ⊢
    rcases ha : e.actionArg with _ | oa
    · rw [ha] at hm
      simp at hm
      exact absurd hm (runAction_not_xattr e a)
    · rcases oa with _ | act
      · rw [ha] at hm
        simp at hm
        exact absurd hm (runAction_not_xattr e a)
      · cases act
        · cases haf : e.actionFails <;> simp [ha, haf] at hm ⊢
        · cases hs : e.scriptOk <;> cases haf : e.actionFails <;>
            simp [ha, hs, haf] at hm ⊢ <;>
            exact absurd hm (runAction_not_xattr e a)
        · cases hs : e.scriptOk <;> cases haf : e.actionFails <;>
            simp [ha, hs, haf] at hm ⊢ <;>
            exact absurd hm (runAction_not_xattr e a)

theorem exit_reflects_action_witness :
    Ev.runActionEv CAction.diff ∈ (mainRun envDiff).2 ∧
      ((mainRun envDiff).1 = 0 ↔ envDiff.actionFails = false) :=
  ⟨by decide, exit_reflects_action envDiff CAction.diff (by decide)⟩

theorem mainRun_dispatch (e : Env) (hd : dispatchReached e) :
    ∃ t, mainRun e = dispatch e t ∧
      Ev.createScriptEv FsTarget.otherT ∉ t ∧
      ∀ b, Ev.runActionEv b ∉ t := by
  obtain ⟨h1, h2, h3, h4, h5, h6, h7, h8⟩ := hd
  by_cases hmt : is_mounted e.lowerStr e.upperStr e.procMounts = true
  · have hans : e.answer = 'Y' ∨ e.answer = 'y' := by
      rcases h8 with h8 | h8 | h8
      · rw [h8] at hmt
        cases hmt
      · exact Or.inl h8
      · exact Or.inr h8
    refine ⟨[Ev.lstatEv FsTarget.lowerT, Ev.lstatEv FsTarget.upperT] ++
        xattrTrace e ++ [Ev.openMountsEv] ++ [Ev.promptEv], ?_, ?_, ?_⟩
    · simp only [mainRun, h1, h2, h3, h4, h5, h6, h7, hmt]
      rw [if_pos hans]
      simp
    · intro h
      simp at h
      exact absurd h (createScript_not_xattr e _)
    · intro b h
      simp at h
      exact absurd h (runAction_not_xattr e b)
  · have hmf : is_mounted e.lowerStr e.upperStr e.procMounts = false := by
      cases hb : is_mounted e.lowerStr e.upperStr e.procMounts
      · rfl
      · exact absurd hb hmt
    refine ⟨[Ev.lstatEv FsTarget.lowerT, Ev.lstatEv FsTarget.upperT] ++
        xattrTrace e ++ [Ev.openMountsEv], ?_, ?_, ?_⟩
    · simp only [mainRun, h1, h2, h3, h4, h5, h6, h7, hmf]
      simp
    · intro h
      simp at h
      exact absurd h (createScript_not_xattr e _)
    · intro b h
      simp at h
      exact absurd h (runAction_not_xattr e b)

set_option maxHeartbeats 1600000 in
/-- C10: once the validated run reaches the action dispatch, a script
file is created iff the selected action is vacuum or merge; diff never
creates one; for vacuum and merge the script creation precedes the
planner invocation, and if creation fails the planner never runs and the
process exits with failure. -/
theorem script_creation_policy (e : Env) (hd : dispatchReached e) :
    (Ev.createScriptEv FsTarget.otherT ∈ (mainRun e).2 ↔
      (e.actionArg = some (some CAction.vacuum) ∨
        e.actionArg = some (some CAction.merge))) ∧
    (e.actionArg = some (some CAction.diff) →
      Ev.createScriptEv FsTarget.otherT ∉ (mainRun e).2) ∧
    ((e.actionArg = some (some CAction.vacuum) ∨
        e.actionArg = some (some CAction.merge)) →
      (e.scriptOk = true →
        ∃ a pre, (mainRun e).2 =
            pre ++ [Ev.createScriptEv FsTarget.otherT, Ev.runActionEv a] ∧
          ∀ b, Ev.runActionEv b ∉ pre) ∧
      (e.scriptOk = false →
        (mainRun e).1 = 1 ∧
          ∀ b, Ev.runActionEv b ∉ (mainRun e).2)) := by
  obtain ⟨t, hmain, hc, hr⟩ := mainRun_dispatch e hd
  rw [hmain]
  simp only [dispatch]
  rcases ha : e.actionArg with _ | oa
  · refine ⟨?_, ?_, ?_⟩
    · constructor
      · intro h
        exact absurd h hc
      · rintro (h | h) <;> cases h
    · intro _ h
      exact absurd h hc
    · rintro (h | h) <;> cases h
  · rcases oa with _ | act
    · refine ⟨?_, ?_, ?_⟩
      · constructor
        · intro h
          exact absurd h hc
        · rintro (h | h) <;> simp at h
      · intro _ h
        exact absurd h hc
      · rintro (h | h) <;> simp at h
    · cases act
      · refine ⟨?_, ?_, ?_⟩
        · constructor
          · intro h
            simp [ha] at h
            exact absurd h hc
          · rintro (h | h) <;> simp at h
        · intro _ h
          simp [ha] at h
          exact absurd h hc
        · rintro (h | h) <;> simp at h
      · refine ⟨?_, ?_, ?_⟩
        · constructor
          · intro _
            exact Or.inl rfl
          · intro _
            cases hs : e.scriptOk <;> simp [ha, hs]
        · intro h
          simp at h
        · intro _
          constructor
          · intro hs
            refine ⟨CAction.vacuum, t, ?_, hr⟩
            simp [ha, hs]
          · intro hs
            constructor
            · simp [ha, hs]
            · intro b h
              simp [ha, hs] at h
              exact absurd h (hr b)
      · refine ⟨?_, ?_, ?_⟩
        · constructor
          · intro _
            exact Or.inr rfl
          · intro _
            cases hs : e.scriptOk <;> simp [ha, hs]
        · intro h
          simp at h
        · intro _
          constructor
          · intro hs
            refine ⟨CAction.merge, t, ?_, hr⟩
            simp [ha, hs]
          · intro hs
            constructor
            · simp [ha, hs]
            · intro b h
              simp [ha, hs] at h
              exact absurd h (hr b)

theorem script_creation_policy_witness :
    dispatchReached envVacuum ∧
    (Ev.createScriptEv FsTarget.otherT ∈ (mainRun envVacuum).2 ↔
      (envVacuum.actionArg = some (some CAction.vacuum) ∨
        envVacuum.actionArg = some (some CAction.merge))) :=
  ⟨⟨rfl, rfl, rfl, rfl, rfl, rfl, rfl, Or.inl (by decide)⟩,
    (script_creation_policy envVacuum
      ⟨rfl, rfl, rfl, rfl, rfl, rfl, rfl, Or.inl (by decide)⟩).1⟩
